import Mathlib

/-!
# Verification of the command-dictionary grouping tree

Shallow embedding of the command-dictionary tree provider: the group-path
parser, the group tree builder, the children query, the configuration scope
resolution, the default-bundle loader and the insertion edit, together with
theorems checking the repository's specification claims against them.

Strings are handled at the level of their character lists where the source
manipulates them (split on `'/'`, trim, join), so that all definitions are
structurally recursive and kernel-evaluable.  JavaScript's locale-aware
case-insensitive comparison (`localeCompare` with sensitivity `base`) is
modelled as code-point comparison of ASCII-lowercased strings, and JS's
stable `Array.prototype.sort` as insertion sort (any two stable sorts agree
for a total preorder).
-/

namespace CommandDictionary

/-- A configured command record (`CommandConfig` in the source). -/
structure CommandConfig where
  label : String
  insertText : String
  description : Option String := none
  group : Option String := none
  deriving DecidableEq, Repr

/-! ## Group path parsing (`parseGroupSegments`) -/

/-- JS `string.split('/')` at the character level. -/
def splitSlash : List Char → List (List Char)
  | [] => [[]]
  | c :: rest =>
    if c = '/' then [] :: splitSlash rest
    else
      match splitSlash rest with
      | [] => [[c]]
      | s :: ss => (c :: s) :: ss

/-- JS `string.trim()` at the character level (whitespace stripped from both ends). -/
def trimChars (cs : List Char) : List Char :=
  (((cs.dropWhile Char.isWhitespace).reverse).dropWhile Char.isWhitespace).reverse

/-- `parseGroupSegments`: split the optional group string on `'/'`, trim each
segment and discard empty segments; an absent or empty group yields `[]`. -/
def parseGroupSegments : Option String → List String
  | none => []
  | some g =>
    if g = "" then []
    else ((splitSlash g.data).map (fun cs => String.mk (trimChars cs))).filter
      (fun s => s ≠ "")

/-! ## The group tree (`CommandGroupTree`) -/

/-- One tree node: label, full segment path, subgroups as an insertion-ordered
association list (JS `Map`), and the directly attached commands. -/
inductive GTree : Type where
  | node (label : String) (segments : List String)
      (subgroups : List (String × GTree)) (commands : List CommandConfig) : GTree

def GTree.label : GTree → String
  | .node l _ _ _ => l

def GTree.segments : GTree → List String
  | .node _ s _ _ => s

def GTree.subgroups : GTree → List (String × GTree)
  | .node _ _ sub _ => sub

def GTree.commands : GTree → List CommandConfig
  | .node _ _ _ cs => cs

/-- JS `Map.get`: first (unique) binding of the key. -/
def assocGet (k : String) : List (String × GTree) → Option GTree
  | [] => none
  | (k', v) :: rest => if k' = k then some v else assocGet k rest

/-- JS `Map.set` when the key is already present: replace the value in place. -/
def assocSet (k : String) (v : GTree) : List (String × GTree) → List (String × GTree)
  | [] => []
  | (k', v') :: rest => if k' = k then (k', v) :: rest else (k', v') :: assocSet k v rest

/-- One step of `buildGroupTree`'s inner loop: walk/create the nodes for
`segs` below `t` (whose full path is `cur`) and append `cmd` at the end. -/
def insertCmd (cmd : CommandConfig) : List String → List String → GTree → GTree
  | [], _, .node l s sub cs => .node l s sub (cs ++ [cmd])
  | seg :: rest, cur, .node l s sub cs =>
    match assocGet seg sub with
    | some child => .node l s (assocSet seg (insertCmd cmd rest (cur ++ [seg]) child) sub) cs
    | none =>
      .node l s (sub ++ [(seg, insertCmd cmd rest (cur ++ [seg])
        (.node seg (cur ++ [seg]) [] []))]) cs

/-- `buildGroupTree`: derive the grouping tree from the record list. -/
def buildGroupTree (items : List CommandConfig) : GTree :=
  items.foldl (fun t cmd => insertCmd cmd (parseGroupSegments cmd.group) [] t)
    (.node "" [] [] [])

/-- `findGroup`: resolve a segment path against a tree. -/
def findGroup : GTree → List String → Option GTree
  | t, [] => some t
  | t, seg :: rest =>
    match assocGet seg t.subgroups with
    | some child => findGroup child rest
    | none => none

/-- The commands directly attached at a path (empty when the path does not resolve). -/
def commandsAt (t : GTree) (p : List String) : List CommandConfig :=
  match findGroup t p with
  | some n => n.commands
  | none => []

/-- The child keys of the node at a path (empty when the path does not resolve). -/
def keysAt (t : GTree) (p : List String) : List String :=
  match findGroup t p with
  | some n => n.subgroups.map Prod.fst
  | none => []

/-- The distinct child segments that the records create directly below path
`p`, in first-encounter order (the key order of the JS `Map` at that node). -/
def childKeysAt (items : List CommandConfig) (p : List String) : List String :=
  items.foldl (fun acc r =>
    let segs := parseGroupSegments r.group
    if p.length < segs.length ∧ segs.take p.length = p then
      (if segs.getD p.length "" ∈ acc then acc else acc ++ [segs.getD p.length ""])
    else acc) []

/-- Every node reachable in `t` (whose own path is `cur`) stores its full
path in its `segments` field and its last path segment as its label. -/
def pathInv (cur : List String) (t : GTree) : Prop :=
  ∀ p n, findGroup t p = some n →
    n.segments = cur ++ p ∧ ∀ pre s, cur ++ p = pre ++ [s] → n.label = s

/-! ## Sorting (`localeCompare` with sensitivity `base`, stable sort) -/

/-- Code-point comparison of character lists (`≤`, lexicographic). -/
def leChars : List Char → List Char → Bool
  | [], _ => true
  | _ :: _, [] => false
  | a :: as, b :: bs =>
    if a.toNat < b.toNat then true
    else if b.toNat < a.toNat then false
    else leChars as bs

/-- Case-insensitive string comparison modelling
`a.localeCompare(b, undefined, \x7b sensitivity: 'base' \x7d) <= 0`. -/
def ciLE (a b : String) : Bool :=
  leChars (a.data.map Char.toLower) (b.data.map Char.toLower)

/-- The sort relation used on sibling group nodes: case-insensitive
comparison of their labels. -/
def gtLE (a b : GTree) : Prop := ciLE a.label b.label = true

instance : DecidableRel gtLE := fun a b => inferInstanceAs (Decidable (_ = true))

/-! ## Displayable items (`GroupNode`, `CommandNode`, `getChildren`) -/

/-- A displayable group-header item (`GroupNode` in the source). -/
structure GroupNodeItem where
  labelText : String
  segments : List String
  isUngrouped : Bool := false
  deriving DecidableEq, Repr

/-- JS `Array.prototype.join('/')`. -/
def joinSlash : List String → String
  | [] => ""
  | [s] => s
  | s :: rest => s ++ "/" ++ joinSlash rest

/-- The sentinel identity of the synthetic "Ungrouped" header. -/
def ungroupedSentinel : String := "__commandDictionaryUngrouped__"

/-- The `id` field set in `GroupNode`'s constructor:
`isUngrouped ? sentinel : segments.join('/') || labelText`. -/
def GroupNodeItem.id (g : GroupNodeItem) : String :=
  if g.isUngrouped then ungroupedSentinel
  else if joinSlash g.segments = "" then g.labelText
  else joinSlash g.segments

/-- A displayable tree item: either a group header or a command leaf. -/
inductive TreeItem : Type where
  | group (g : GroupNodeItem)
  | command (cmd : CommandConfig)
  deriving DecidableEq, Repr

/-- The synthetic "Ungrouped" header (`new GroupNode(UNGROUPED_LABEL, [], true)`). -/
def ungroupedItem : GroupNodeItem := ⟨"Ungrouped", [], true⟩

/-- `createGroupNodes`: sort the sibling nodes by case-insensitive label
comparison (stable) and convert them to displayable headers. -/
def createGroupNodes (sub : List (String × GTree)) : List GroupNodeItem :=
  (List.insertionSort gtLE (sub.map Prod.snd)).map
    (fun t => ⟨t.label, t.segments, false⟩)

/-- `getChildren`, parameterised by the configured command list the provider
reads afresh on every call. -/
def getChildren (items : List CommandConfig) : Option TreeItem → List TreeItem
  | none =>
    let tree := buildGroupTree items
    if tree.subgroups.isEmpty then
      tree.commands.map .command
    else
      let rootGroups := createGroupNodes tree.subgroups
      if tree.commands.isEmpty then rootGroups.map .group
      else .group ungroupedItem :: rootGroups.map .group
  | some (.group g) =>
    let tree := buildGroupTree items
    if g.isUngrouped then tree.commands.map .command
    else
      match findGroup tree g.segments with
      | none => []
      | some grp =>
        (createGroupNodes grp.subgroups).map .group ++ grp.commands.map .command
  | some (.command _) => []

/-! ## Configuration scopes (`getConfiguredCommands`) -/

/-- A raw value found at one configuration scope: either a well-typed array
of records or something that is not an array (`Array.isArray` fails). -/
inductive ConfigValue : Type where
  | arr (items : List CommandConfig)
  | other
  deriving DecidableEq, Repr

/-- The result of inspecting the `commandDictionary.commands` key: one
optional value per scope. -/
structure InspectResult where
  workspaceFolderLanguageValue : Option ConfigValue
  workspaceLanguageValue : Option ConfigValue
  globalLanguageValue : Option ConfigValue
  workspaceFolderValue : Option ConfigValue
  workspaceValue : Option ConfigValue
  globalValue : Option ConfigValue
  deriving DecidableEq, Repr

/-- The candidate order hard-coded in `getConfiguredCommands`, most specific
scope first. -/
def InspectResult.candidates (i : InspectResult) : List (Option ConfigValue) :=
  [i.workspaceFolderLanguageValue, i.workspaceLanguageValue,
    i.globalLanguageValue, i.workspaceFolderValue, i.workspaceValue,
    i.globalValue]

/-- The loop of `getConfiguredCommands`: the first defined candidate wins; a
defined candidate that is not an array falls back to the defaults. -/
def pickCandidates (defaults : List CommandConfig) :
    List (Option ConfigValue) → List CommandConfig
  | [] => defaults
  | none :: rest => pickCandidates defaults rest
  | some (.arr l) :: _ => l
  | some .other :: _ => defaults

/-- `getConfiguredCommands`; the inspection itself may also be undefined. -/
def getConfiguredCommands (defaults : List CommandConfig) :
    Option InspectResult → List CommandConfig
  | none => defaults
  | some i => pickCandidates defaults i.candidates

/-! ## Default bundle loading (`loadDefaultCommands`, `isCommandConfig`) -/

/-- A parsed JSON value. -/
inductive JValue : Type where
  | null
  | bool (b : Bool)
  | num (n : Int)
  | str (s : String)
  | arr (elems : List JValue)
  | obj (fields : List (String × JValue))

/-- Property lookup on a JSON object's fields. -/
def jGet (k : String) : List (String × JValue) → Option JValue
  | [] => none
  | (k', v) :: rest => if k' = k then some v else jGet k rest

def JValue.isStr : JValue → Bool
  | .str _ => true
  | _ => false

/-- `isCommandConfig`: the value is an object (`null` fails the truthiness
check and an array carries no `label` property) whose `label` and
`insertText` properties are both strings. -/
def isCommandConfig : JValue → Bool
  | .obj fields =>
    (match jGet "label" fields with
      | some v => v.isStr
      | none => false) &&
    (match jGet "insertText" fields with
      | some v => v.isStr
      | none => false)
  | _ => false

/-- `loadDefaultCommands`, over the outcome of reading and parsing the
bundled file: `none` models a read or parse exception (caught and logged), a
parsed non-array falls through to the empty list, and a parsed array keeps
exactly its well-shaped elements. -/
def loadDefaultCommands : Option JValue → List JValue
  | some (.arr elems) => elems.filter isCommandConfig
  | _ => []

/-! ## The insert command -/

/-- A selection in the active editor, as character offsets `start ≤ stop`;
it is empty when the offsets coincide. -/
structure Selection where
  start : Nat
  stop : Nat
  deriving DecidableEq, Repr

def Selection.isEmpty (s : Selection) : Bool := s.start == s.stop

/-- The active editor: buffer contents and current selections. -/
structure EditorState where
  buffer : List Char
  selections : List Selection
  deriving DecidableEq, Repr

/-- Outcome of running the insert command. -/
inductive InsertResult : Type where
  | noEditor (notice : String)
  | edited (newBuffer : List Char)
  deriving DecidableEq, Repr

/-- The edit built for one selection: `replace(sel, text)` when the selection
is non-empty, `insert(sel.start, text)` (an empty-range replace) otherwise. -/
def mkEdit (text : List Char) (sel : Selection) : Nat × Nat × List Char :=
  if sel.isEmpty then (sel.start, sel.start, text)
  else (sel.start, sel.stop, text)

/-- Replace the half-open range `[e.1, e.2.1)` of `buf` by `e.2.2`. -/
def applyOneEdit (buf : List Char) (e : Nat × Nat × List Char) : List Char :=
  buf.take e.1 ++ e.2.2 ++ buf.drop e.2.1

/-- Apply a batch of edits, all addressed in the original buffer's
coordinates, as one atomic edit (rightmost edit first). -/
def applyEditBatch (buf : List Char) (edits : List (Nat × Nat × List Char)) :
    List Char :=
  edits.foldr (fun e b => applyOneEdit b e) buf

/-- The `commandDictionary.insert` handler: without an active editor it only
shows an informational notice; otherwise it applies one atomic edit built
from all current selections. -/
def insertHandler (text : String) : Option EditorState → InsertResult
  | none => .noEditor "Open a text editor to insert the command."
  | some ed =>
    .edited (applyEditBatch ed.buffer (ed.selections.map (mkEdit text.data)))

/-- Specification-side description of the atomic edit: every selection region
is replaced by the payload (insertion at a point for empty selections) and
the buffer outside the selections survives unchanged, in order. -/
def specInsertAll (text buf : List Char) (pos : Nat) :
    List Selection → List Char
  | [] => buf.drop pos
  | sel :: rest =>
    (buf.drop pos).take (sel.start - pos) ++ text ++
      specInsertAll text buf sel.stop rest

/-- Selections are in ascending order, non-overlapping, and within the
buffer (what the host guarantees for the simultaneous-edit batch). -/
def selsOK (len : Nat) : Nat → List Selection → Bool
  | _, [] => true
  | pos, sel :: rest =>
    decide (pos ≤ sel.start) && decide (sel.start ≤ sel.stop) &&
      decide (sel.stop ≤ len) && selsOK len sel.stop rest

/-! ## Association-list lemmas -/

theorem assocGet_eq_none_iff (k : String) (l : List (String × GTree)) :
    assocGet k l = none ↔ k ∉ l.map Prod.fst := by
  induction l with
  | nil => simp [assocGet]
  | cons kv rest ih =>
    obtain ⟨k', v⟩ := kv
    by_cases h : k' = k
    · subst h
      simp [assocGet]
    · simp only [assocGet, if_neg h, List.map_cons, List.mem_cons]
      rw [ih]
      constructor
      · rintro hn (he | hm)
        · exact h he.symm
        · exact hn hm
      · intro hn hm
        exact hn (Or.inr hm)

theorem mem_of_assocGet_some {k : String} {l : List (String × GTree)} {v : GTree}
    (h : assocGet k l = some v) : (k, v) ∈ l := by
  induction l with
  | nil => simp [assocGet] at h
  | cons kv rest ih =>
    obtain ⟨k', v'⟩ := kv
    by_cases hk : k' = k
    · subst hk
      simp [assocGet] at h
      simp [h]
    · simp [assocGet, hk] at h
      exact List.mem_cons_of_mem _ (ih h)

theorem mem_map_fst_of_assocGet_some {k : String} {l : List (String × GTree)} {v : GTree}
    (h : assocGet k l = some v) : k ∈ l.map Prod.fst := by
  exact List.mem_map.2 ⟨(k, v), mem_of_assocGet_some h, rfl⟩

theorem assocGet_of_mem_nodup {k : String} {l : List (String × GTree)} {v : GTree}
    (hn : (l.map Prod.fst).Nodup) (h : (k, v) ∈ l) : assocGet k l = some v := by
  induction l with
  | nil => simp at h
  | cons kv rest ih =>
    obtain ⟨k', v'⟩ := kv
    simp only [List.map_cons, List.nodup_cons] at hn
    rcases List.mem_cons.1 h with h1 | h2
    · cases h1
      simp [assocGet]
    · have hk : k' ≠ k := by
        intro he
        subst he
        exact hn.1 (List.mem_map.2 ⟨(k', v), h2, rfl⟩)
      simp only [assocGet, if_neg hk]
      exact ih hn.2 h2

theorem map_fst_assocSet (k : String) (v : GTree) (l : List (String × GTree)) :
    (assocSet k v l).map Prod.fst = l.map Prod.fst := by
  induction l with
  | nil => rfl
  | cons kv rest ih =>
    obtain ⟨k', v'⟩ := kv
    by_cases h : k' = k <;> simp [assocSet, h, ih]

theorem assocGet_assocSet_self {k : String} {l : List (String × GTree)} {w : GTree}
    (v : GTree) (h : assocGet k l = some w) :
    assocGet k (assocSet k v l) = some v := by
  induction l with
  | nil => simp [assocGet] at h
  | cons kv rest ih =>
    obtain ⟨k', v'⟩ := kv
    by_cases hk : k' = k
    · simp [assocSet, hk, assocGet]
    · simp [assocGet, hk] at h
      simp [assocSet, hk, assocGet, ih h]

theorem assocGet_assocSet_ne {q k : String} (hne : q ≠ k) (v : GTree)
    (l : List (String × GTree)) :
    assocGet q (assocSet k v l) = assocGet q l := by
  induction l with
  | nil => rfl
  | cons kv rest ih =>
    obtain ⟨k', v'⟩ := kv
    by_cases hk : k' = k
    · subst hk
      have h2 : k' ≠ q := fun h => hne h.symm
      simp [assocSet, assocGet, h2]
    · simp only [assocSet, if_neg hk]
      by_cases hq : k' = q
      · subst hq
        simp [assocGet]
      · simp [assocGet, hq, ih]

theorem assocGet_append_of_some {q : String} {l₁ : List (String × GTree)} {v : GTree}
    (l₂ : List (String × GTree)) (h : assocGet q l₁ = some v) :
    assocGet q (l₁ ++ l₂) = some v := by
  induction l₁ with
  | nil => simp [assocGet] at h
  | cons kv rest ih =>
    obtain ⟨k', v'⟩ := kv
    by_cases hk : k' = q <;> simp_all [assocGet]

theorem assocGet_append_of_none {q : String} {l₁ : List (String × GTree)}
    (l₂ : List (String × GTree)) (h : assocGet q l₁ = none) :
    assocGet q (l₁ ++ l₂) = assocGet q l₂ := by
  induction l₁ with
  | nil => rfl
  | cons kv rest ih =>
    obtain ⟨k', v'⟩ := kv
    by_cases hk : k' = q <;> simp_all [assocGet]

/-! ## Unfolding lemmas for `findGroup`, `commandsAt`, `keysAt` -/

@[simp] theorem findGroup_nil (t : GTree) : findGroup t [] = some t := rfl

theorem findGroup_cons_some {t : GTree} {seg : String} {c : GTree}
    (h : assocGet seg t.subgroups = some c) (rest : List String) :
    findGroup t (seg :: rest) = findGroup c rest := by
  simp [findGroup, h]

theorem findGroup_cons_none {t : GTree} {seg : String}
    (h : assocGet seg t.subgroups = none) (rest : List String) :
    findGroup t (seg :: rest) = none := by
  simp [findGroup, h]

theorem commandsAt_nil (t : GTree) : commandsAt t [] = t.commands := rfl

theorem commandsAt_cons_some {t : GTree} {seg : String} {c : GTree}
    (h : assocGet seg t.subgroups = some c) (rest : List String) :
    commandsAt t (seg :: rest) = commandsAt c rest := by
  simp [commandsAt, findGroup_cons_some h]

theorem commandsAt_cons_none {t : GTree} {seg : String}
    (h : assocGet seg t.subgroups = none) (rest : List String) :
    commandsAt t (seg :: rest) = [] := by
  simp [commandsAt, findGroup_cons_none h]

theorem commandsAt_leaf (l : String) (s : List String) (cs : List CommandConfig)
    (p : List String) :
    commandsAt (.node l s [] cs) p = if p = [] then cs else [] := by
  cases p with
  | nil => rfl
  | cons q ps =>
    simp [commandsAt_cons_none
      (show assocGet q (GTree.node l s [] cs).subgroups = none from rfl) ps]

theorem keysAt_nil (t : GTree) : keysAt t [] = t.subgroups.map Prod.fst := rfl

theorem keysAt_cons_some {t : GTree} {seg : String} {c : GTree}
    (h : assocGet seg t.subgroups = some c) (rest : List String) :
    keysAt t (seg :: rest) = keysAt c rest := by
  simp [keysAt, findGroup_cons_some h]

theorem keysAt_cons_none {t : GTree} {seg : String}
    (h : assocGet seg t.subgroups = none) (rest : List String) :
    keysAt t (seg :: rest) = [] := by
  simp [keysAt, findGroup_cons_none h]

theorem keysAt_leaf (l : String) (s : List String) (cs : List CommandConfig)
    (p : List String) :
    keysAt (.node l s [] cs) p = [] := by
  cases p with
  | nil => rfl
  | cons q ps =>
    simp [keysAt_cons_none
      (show assocGet q (GTree.node l s [] cs).subgroups = none from rfl) ps]

/-! ## How one insertion changes the tree -/

theorem commandsAt_insertCmd (cmd : CommandConfig) :
    ∀ (segs : List String) (cur p : List String) (t : GTree),
      commandsAt (insertCmd cmd segs cur t) p =
        if p = segs then commandsAt t p ++ [cmd] else commandsAt t p := by
  intro segs
  induction segs with
  | nil =>
    intro cur p t
    obtain ⟨l, s, sub, cs⟩ := t
    cases p with
    | nil => simp [insertCmd, commandsAt_nil, GTree.commands]
    | cons q ps =>
      simp only [insertCmd, List.cons_ne_nil, if_neg]
      rfl
  | cons a rest ih =>
    intro cur p t
    obtain ⟨l, s, sub, cs⟩ := t
    cases hget : assocGet a sub with
    | some child =>
      simp only [insertCmd, hget]
      cases p with
      | nil =>
        simp [commandsAt_nil, GTree.commands]
      | cons q ps =>
        by_cases hq : q = a
        · subst hq
          have h1 : assocGet q (assocSet q (insertCmd cmd rest (cur ++ [q]) child) sub) =
              some (insertCmd cmd rest (cur ++ [q]) child) :=
            assocGet_assocSet_self _ hget
          rw [commandsAt_cons_some (t := .node l s (assocSet q _ sub) cs) h1,
            commandsAt_cons_some (t := .node l s sub cs) hget, ih]
          simp
        · have h1 : assocGet q (assocSet a (insertCmd cmd rest (cur ++ [a]) child) sub) =
              assocGet q sub := assocGet_assocSet_ne hq _ sub
          have hpq : ¬(q :: ps = a :: rest) := by simp [hq]
          rw [if_neg hpq]
          cases hgq : assocGet q sub with
          | some c =>
            rw [commandsAt_cons_some (t := .node l s (assocSet a _ sub) cs) (h1.trans hgq),
              commandsAt_cons_some (t := .node l s sub cs) hgq]
          | none =>
            rw [commandsAt_cons_none (t := .node l s (assocSet a _ sub) cs) (h1.trans hgq),
              commandsAt_cons_none (t := .node l s sub cs) hgq]
    | none =>
      simp only [insertCmd, hget]
      cases p with
      | nil =>
        simp [commandsAt_nil, GTree.commands]
      | cons q ps =>
        set child' := insertCmd cmd rest (cur ++ [a]) (.node a (cur ++ [a]) [] []) with hc
        by_cases hq : q = a
        · subst hq
          have h1 : assocGet q (sub ++ [(q, child')]) = some child' := by
            rw [assocGet_append_of_none _ hget]
            simp [assocGet]
          rw [commandsAt_cons_some (t := .node l s (sub ++ [(q, child')]) cs) h1,
            commandsAt_cons_none (t := .node l s sub cs) hget, hc, ih]
          simp only [commandsAt_leaf]
          by_cases hps : ps = rest
          · simp [hps]
          · simp [hps]
        · have h1 : assocGet q (sub ++ [(a, child')]) = assocGet q sub := by
            cases hgq : assocGet q sub with
            | some c => exact assocGet_append_of_some _ hgq
            | none =>
              rw [assocGet_append_of_none _ hgq]
              simp [assocGet, hq]
              intro h
              exact (hq h.symm).elim
          have hpq : ¬(q :: ps = a :: rest) := by simp [hq]
          rw [if_neg hpq]
          cases hgq : assocGet q sub with
          | some c =>
            rw [commandsAt_cons_some (t := .node l s (sub ++ [(a, child')]) cs) (h1.trans hgq),
              commandsAt_cons_some (t := .node l s sub cs) hgq]
          | none =>
            rw [commandsAt_cons_none (t := .node l s (sub ++ [(a, child')]) cs) (h1.trans hgq),
              commandsAt_cons_none (t := .node l s sub cs) hgq]

theorem keysAt_insertCmd (cmd : CommandConfig) :
    ∀ (segs : List String) (cur p : List String) (t : GTree),
      keysAt (insertCmd cmd segs cur t) p =
        if p.length < segs.length ∧ segs.take p.length = p then
          (if segs.getD p.length "" ∈ keysAt t p then keysAt t p
            else keysAt t p ++ [segs.getD p.length ""])
        else keysAt t p := by
  intro segs
  induction segs with
  | nil =>
    intro cur p t
    obtain ⟨l, s, sub, cs⟩ := t
    have hcond : ¬(p.length < ([] : List String).length ∧
        ([] : List String).take p.length = p) := by
      rintro ⟨h1, -⟩
      simp at h1
    rw [if_neg hcond]
    cases p with
    | nil => rfl
    | cons q ps => rfl
  | cons a rest ih =>
    intro cur p t
    obtain ⟨l, s, sub, cs⟩ := t
    cases hget : assocGet a sub with
    | some child =>
      simp only [insertCmd, hget]
      cases p with
      | nil =>
        have hmem : a ∈ keysAt (GTree.node l s sub cs) [] :=
          mem_map_fst_of_assocGet_some hget
        have hcnd : ([] : List String).length < (a :: rest).length ∧
            (a :: rest).take ([] : List String).length = [] := ⟨by simp, by simp⟩
        have hg : (a :: rest).getD ([] : List String).length "" = a := by simp
        rw [if_pos hcnd, hg, if_pos hmem, keysAt_nil, keysAt_nil]
        exact map_fst_assocSet _ _ _
      | cons q ps =>
        by_cases hq : q = a
        · subst hq
          have h1 : assocGet q (assocSet q (insertCmd cmd rest (cur ++ [q]) child) sub) =
              some (insertCmd cmd rest (cur ++ [q]) child) :=
            assocGet_assocSet_self _ hget
          rw [keysAt_cons_some (t := .node l s (assocSet q _ sub) cs) h1,
            keysAt_cons_some (t := .node l s sub cs) hget, ih]
          have hc : ((q :: ps).length < (q :: rest).length ∧
                (q :: rest).take (q :: ps).length = q :: ps) ↔
              (ps.length < rest.length ∧ rest.take ps.length = ps) := by
            simp [Nat.succ_lt_succ_iff]
          have hg : (q :: rest).getD (q :: ps).length "" = rest.getD ps.length "" := by
            simp [List.getD]
          rw [hg]
          by_cases h2 : ps.length < rest.length ∧ rest.take ps.length = ps
          · rw [if_pos h2, if_pos (hc.2 h2)]
          · rw [if_neg h2, if_neg (fun h => h2 (hc.1 h))]
        · have h1 : assocGet q (assocSet a (insertCmd cmd rest (cur ++ [a]) child) sub) =
              assocGet q sub := assocGet_assocSet_ne hq _ sub
          have hcond : ¬((q :: ps).length < (a :: rest).length ∧
              (a :: rest).take (q :: ps).length = q :: ps) := by
            rintro ⟨-, h2⟩
            simp only [List.length_cons, List.take_succ_cons, List.cons.injEq] at h2
            exact hq h2.1.symm
          rw [if_neg hcond]
          cases hgq : assocGet q sub with
          | some c =>
            rw [keysAt_cons_some (t := .node l s (assocSet a _ sub) cs) (h1.trans hgq),
              keysAt_cons_some (t := .node l s sub cs) hgq]
          | none =>
            rw [keysAt_cons_none (t := .node l s (assocSet a _ sub) cs) (h1.trans hgq),
              keysAt_cons_none (t := .node l s sub cs) hgq]
    | none =>
      simp only [insertCmd, hget]
      cases p with
      | nil =>
        have hmem : a ∉ keysAt (GTree.node l s sub cs) [] :=
          (assocGet_eq_none_iff a sub).1 hget
        have hcnd : ([] : List String).length < (a :: rest).length ∧
            (a :: rest).take ([] : List String).length = [] := ⟨by simp, by simp⟩
        have hg : (a :: rest).getD ([] : List String).length "" = a := by simp
        rw [if_pos hcnd, hg, if_neg hmem, keysAt_nil, keysAt_nil]
        show (sub ++ [(a, _)]).map Prod.fst = sub.map Prod.fst ++ [a]
        simp
      | cons q ps =>
        set child' := insertCmd cmd rest (cur ++ [a]) (.node a (cur ++ [a]) [] []) with hc
        by_cases hq : q = a
        · subst hq
          have h1 : assocGet q (sub ++ [(q, child')]) = some child' := by
            rw [assocGet_append_of_none _ hget]
            simp [assocGet]
          rw [keysAt_cons_some (t := .node l s (sub ++ [(q, child')]) cs) h1,
            keysAt_cons_none (t := .node l s sub cs) hget, hc, ih]
          have hcnd : ((q :: ps).length < (q :: rest).length ∧
                (q :: rest).take (q :: ps).length = q :: ps) ↔
              (ps.length < rest.length ∧ rest.take ps.length = ps) := by
            simp [Nat.succ_lt_succ_iff]
          have hg : (q :: rest).getD (q :: ps).length "" = rest.getD ps.length "" := by
            simp [List.getD]
          rw [hg, keysAt_leaf]
          by_cases h2 : ps.length < rest.length ∧ rest.take ps.length = ps
          · rw [if_pos h2, if_pos (hcnd.2 h2)]
          · rw [if_neg h2, if_neg (fun h => h2 (hcnd.1 h))]
        · have h1 : assocGet q (sub ++ [(a, child')]) = assocGet q sub := by
            cases hgq : assocGet q sub with
            | some c => exact assocGet_append_of_some _ hgq
            | none =>
              rw [assocGet_append_of_none _ hgq]
              simp only [assocGet]
              rw [if_neg (fun h => hq h.symm)]
          have hcond : ¬((q :: ps).length < (a :: rest).length ∧
              (a :: rest).take (q :: ps).length = q :: ps) := by
            rintro ⟨-, h2⟩
            simp only [List.length_cons, List.take_succ_cons, List.cons.injEq] at h2
            exact hq h2.1.symm
          rw [if_neg hcond]
          cases hgq : assocGet q sub with
          | some c =>
            rw [keysAt_cons_some (t := .node l s (sub ++ [(a, child')]) cs) (h1.trans hgq),
              keysAt_cons_some (t := .node l s sub cs) hgq]
          | none =>
            rw [keysAt_cons_none (t := .node l s (sub ++ [(a, child')]) cs) (h1.trans hgq),
              keysAt_cons_none (t := .node l s sub cs) hgq]

/-! ## Characterizing the built tree -/

theorem commandsAt_foldl (p : List String) (items : List CommandConfig) :
    ∀ t : GTree,
      commandsAt (items.foldl (fun t cmd =>
          insertCmd cmd (parseGroupSegments cmd.group) [] t) t) p =
        commandsAt t p ++
          items.filter (fun r => decide (parseGroupSegments r.group = p)) := by
  induction items with
  | nil =>
    intro t
    simp
  | cons r rs ih =>
    intro t
    rw [List.foldl_cons, ih, commandsAt_insertCmd]
    by_cases h : p = parseGroupSegments r.group
    · rw [if_pos h, List.filter_cons, if_pos (by simp [h]), List.append_assoc,
        List.singleton_append]
    · rw [if_neg h, List.filter_cons,
        if_neg (by simpa using fun hh => h hh.symm)]

theorem commandsAt_buildGroupTree (items : List CommandConfig) (p : List String) :
    commandsAt (buildGroupTree items) p =
      items.filter (fun r => decide (parseGroupSegments r.group = p)) := by
  rw [buildGroupTree, commandsAt_foldl, commandsAt_leaf]
  simp

theorem mem_commandsAt_build {items : List CommandConfig} {r : CommandConfig}
    {p : List String} :
    r ∈ commandsAt (buildGroupTree items) p ↔
      r ∈ items ∧ parseGroupSegments r.group = p := by
  rw [commandsAt_buildGroupTree]
  simp [List.mem_filter]

theorem findGroup_isSome_of_commandsAt_ne_nil {t : GTree} {p : List String}
    (h : commandsAt t p ≠ []) : ∃ n, findGroup t p = some n := by
  unfold commandsAt at h
  cases hf : findGroup t p with
  | some n => exact ⟨n, rfl⟩
  | none =>
    rw [hf] at h
    exact (h rfl).elim

theorem keysAt_foldl (p : List String) (items : List CommandConfig) :
    ∀ t : GTree,
      keysAt (items.foldl (fun t cmd =>
          insertCmd cmd (parseGroupSegments cmd.group) [] t) t) p =
        items.foldl (fun acc r =>
          let segs := parseGroupSegments r.group
          if p.length < segs.length ∧ segs.take p.length = p then
            (if segs.getD p.length "" ∈ acc then acc
              else acc ++ [segs.getD p.length ""])
          else acc) (keysAt t p) := by
  induction items with
  | nil =>
    intro t
    rfl
  | cons r rs ih =>
    intro t
    rw [List.foldl_cons, ih, List.foldl_cons, keysAt_insertCmd]

theorem keysAt_buildGroupTree (items : List CommandConfig) (p : List String) :
    keysAt (buildGroupTree items) p = childKeysAt items p := by
  rw [buildGroupTree, keysAt_foldl, keysAt_leaf, childKeysAt]

theorem childKeysAt_step_mem {p : List String} {x : String}
    {acc : List String} (r : CommandConfig) (h : x ∈ acc) :
    x ∈ (fun acc (r : CommandConfig) =>
      let segs := parseGroupSegments r.group
      if p.length < segs.length ∧ segs.take p.length = p then
        (if segs.getD p.length "" ∈ acc then acc
          else acc ++ [segs.getD p.length ""])
      else acc) acc r := by
  simp only
  split
  · split
    · exact h
    · exact List.mem_append_left _ h
  · exact h

theorem childKeysAt_foldl_mem {p : List String} {x : String}
    (items : List CommandConfig) :
    ∀ acc, x ∈ acc →
      x ∈ items.foldl (fun acc r =>
        let segs := parseGroupSegments r.group
        if p.length < segs.length ∧ segs.take p.length = p then
          (if segs.getD p.length "" ∈ acc then acc
            else acc ++ [segs.getD p.length ""])
        else acc) acc := by
  induction items with
  | nil =>
    intro acc h
    exact h
  | cons r rs ih =>
    intro acc h
    exact ih _ (childKeysAt_step_mem r h)

theorem mem_childKeysAt {p : List String} {items : List CommandConfig}
    {r : CommandConfig} (hr : r ∈ items)
    (hlen : p.length < (parseGroupSegments r.group).length)
    (htake : (parseGroupSegments r.group).take p.length = p) :
    (parseGroupSegments r.group).getD p.length "" ∈ childKeysAt items p := by
  rw [childKeysAt]
  have main : ∀ (its : List CommandConfig) (acc : List String), r ∈ its →
      (parseGroupSegments r.group).getD p.length "" ∈ its.foldl (fun acc r =>
        let segs := parseGroupSegments r.group
        if p.length < segs.length ∧ segs.take p.length = p then
          (if segs.getD p.length "" ∈ acc then acc
            else acc ++ [segs.getD p.length ""])
        else acc) acc := by
    intro its
    induction its with
    | nil =>
      intro acc h
      simp at h
    | cons i is ih =>
      intro acc h
      rcases List.mem_cons.1 h with rfl | h2
      · rw [List.foldl_cons]
        apply childKeysAt_foldl_mem
        simp only
        rw [if_pos ⟨hlen, htake⟩]
        split
        · assumption
        · exact List.mem_append_right _ (List.mem_singleton.2 rfl)
      · exact ih _ h2
  exact main items [] hr

theorem childKeysAt_nodup (items : List CommandConfig) (p : List String) :
    (childKeysAt items p).Nodup := by
  rw [childKeysAt]
  suffices h : ∀ acc : List String, acc.Nodup →
      (items.foldl (fun acc r =>
        let segs := parseGroupSegments r.group
        if p.length < segs.length ∧ segs.take p.length = p then
          (if segs.getD p.length "" ∈ acc then acc
            else acc ++ [segs.getD p.length ""])
          else acc) acc).Nodup from h [] List.nodup_nil
  induction items with
  | nil =>
    intro acc h
    exact h
  | cons r rs ih =>
    intro acc h
    refine ih _ ?_
    simp only
    split
    · split
      · exact h
      · next hmem =>
        refine ((List.perm_append_singleton _ _).nodup_iff).2 ?_
        exact List.nodup_cons.2 ⟨hmem, h⟩
    · exact h

/-! ## The path invariant: nodes store their own path and label -/

theorem pathInv_findGroup_child {cur : List String} {t : GTree} (h : pathInv cur t)
    {a : String} {child : GTree} (hget : assocGet a t.subgroups = some child) :
    pathInv (cur ++ [a]) child := by
  intro p n hf
  have h2 := h (a :: p) n (by rw [findGroup_cons_some hget]; exact hf)
  constructor
  · rw [h2.1]
    simp
  · intro pre s hs
    apply h2.2 pre s
    rw [← hs]
    simp

theorem pathInv_insertCmd (cmd : CommandConfig) :
    ∀ (segs cur : List String) (t : GTree), pathInv cur t →
      pathInv cur (insertCmd cmd segs cur t) := by
  intro segs
  induction segs with
  | nil =>
    intro cur t h p n hf
    obtain ⟨l, s, sub, cs⟩ := t
    cases p with
    | nil =>
      cases hf
      exact h [] (GTree.node l s sub cs) rfl
    | cons q ps =>
      exact h (q :: ps) n hf
  | cons a rest ih =>
    intro cur t h
    obtain ⟨l, s, sub, cs⟩ := t
    cases hget : assocGet a sub with
    | some child =>
      simp only [insertCmd, hget]
      intro p n hf
      cases p with
      | nil =>
        cases hf
        exact h [] (GTree.node l s sub cs) rfl
      | cons q ps =>
        by_cases hq : q = a
        · subst hq
          have hchild : pathInv (cur ++ [q]) child := pathInv_findGroup_child h hget
          have hchild' := ih (cur ++ [q]) child hchild
          have hget' : assocGet q
              (assocSet q (insertCmd cmd rest (cur ++ [q]) child) sub) =
              some (insertCmd cmd rest (cur ++ [q]) child) :=
            assocGet_assocSet_self _ hget
          rw [findGroup_cons_some
            (t := .node l s (assocSet q (insertCmd cmd rest (cur ++ [q]) child) sub) cs)
            hget'] at hf
          have h2 := hchild' ps n hf
          constructor
          · rw [h2.1]
            simp
          · intro pre s' hs
            apply h2.2 pre s'
            rw [← hs]
            simp
        · have he : assocGet q (assocSet a (insertCmd cmd rest (cur ++ [a]) child) sub) =
              assocGet q sub := assocGet_assocSet_ne hq _ _
          apply h (q :: ps) n
          cases hgq : assocGet q sub with
          | some c =>
            rw [findGroup_cons_some
              (t := .node l s (assocSet a (insertCmd cmd rest (cur ++ [a]) child) sub) cs)
              (he.trans hgq)] at hf
            rw [findGroup_cons_some (t := .node l s sub cs) hgq]
            exact hf
          | none =>
            rw [findGroup_cons_none
              (t := .node l s (assocSet a (insertCmd cmd rest (cur ++ [a]) child) sub) cs)
              (he.trans hgq)] at hf
            cases hf
    | none =>
      simp only [insertCmd, hget]
      intro p n hf
      cases p with
      | nil =>
        cases hf
        exact h [] (GTree.node l s sub cs) rfl
      | cons q ps =>
        have hemp : pathInv (cur ++ [a]) (GTree.node a (cur ++ [a]) [] []) := by
          intro p' n' hf'
          cases p' with
          | nil =>
            cases hf'
            refine ⟨by simp [GTree.segments], ?_⟩
            intro pre s' hs
            simp only [List.append_nil] at hs
            have := congrArg List.getLast? hs
            rw [List.getLast?_concat, List.getLast?_concat] at this
            simpa [GTree.label] using (Option.some.injEq .. ▸ this)
          | cons q' ps' =>
            rw [findGroup_cons_none (t := GTree.node a (cur ++ [a]) [] []) rfl] at hf'
            cases hf'
        have hchild' := ih (cur ++ [a]) _ hemp
        by_cases hq : q = a
        · subst hq
          have hget' : assocGet q (sub ++
              [(q, insertCmd cmd rest (cur ++ [q]) (GTree.node q (cur ++ [q]) [] []))]) =
              some (insertCmd cmd rest (cur ++ [q]) (GTree.node q (cur ++ [q]) [] [])) := by
            rw [assocGet_append_of_none _ hget]
            simp [assocGet]
          rw [findGroup_cons_some (t := .node l s (sub ++
            [(q, insertCmd cmd rest (cur ++ [q]) (GTree.node q (cur ++ [q]) [] []))]) cs)
            hget'] at hf
          have h2 := hchild' ps n hf
          constructor
          · rw [h2.1]
            simp
          · intro pre s' hs
            apply h2.2 pre s'
            rw [← hs]
            simp
        · have he : assocGet q (sub ++
              [(a, insertCmd cmd rest (cur ++ [a]) (GTree.node a (cur ++ [a]) [] []))]) =
              assocGet q sub := by
            cases hgq : assocGet q sub with
            | some c => exact assocGet_append_of_some _ hgq
            | none =>
              rw [assocGet_append_of_none _ hgq]
              simp only [assocGet]
              rw [if_neg (fun hh => hq hh.symm)]
          apply h (q :: ps) n
          cases hgq : assocGet q sub with
          | some c =>
            rw [findGroup_cons_some (t := .node l s (sub ++
              [(a, insertCmd cmd rest (cur ++ [a]) (GTree.node a (cur ++ [a]) [] []))]) cs)
              (he.trans hgq)] at hf
            rw [findGroup_cons_some (t := .node l s sub cs) hgq]
            exact hf
          | none =>
            rw [findGroup_cons_none (t := .node l s (sub ++
              [(a, insertCmd cmd rest (cur ++ [a]) (GTree.node a (cur ++ [a]) [] []))]) cs)
              (he.trans hgq)] at hf
            cases hf

theorem pathInv_build (items : List CommandConfig) :
    pathInv [] (buildGroupTree items) := by
  rw [buildGroupTree]
  have root : pathInv [] (GTree.node "" [] [] []) := by
    intro p n hf
    cases p with
    | nil =>
      cases hf
      refine ⟨rfl, ?_⟩
      intro pre s hs
      simp at hs
    | cons q ps =>
      rw [findGroup_cons_none (t := GTree.node "" [] [] []) rfl] at hf
      cases hf
  have main : ∀ (its : List CommandConfig) (t : GTree), pathInv [] t →
      pathInv [] (its.foldl (fun t cmd =>
        insertCmd cmd (parseGroupSegments cmd.group) [] t) t) := by
    intro its
    induction its with
    | nil =>
      intro t h
      exact h
    | cons i is ih =>
      intro t h
      exact ih _ (pathInv_insertCmd i _ [] t h)
  exact main items _ root

theorem segments_findGroup_build {items : List CommandConfig} {p : List String}
    {n : GTree} (h : findGroup (buildGroupTree items) p = some n) :
    n.segments = p := by
  simpa using (pathInv_build items p n h).1

theorem label_findGroup_build {items : List CommandConfig} {pre : List String}
    {s : String} {n : GTree}
    (h : findGroup (buildGroupTree items) (pre ++ [s]) = some n) :
    n.label = s :=
  (pathInv_build items _ n h).2 pre s (by simp)

theorem findGroup_append (t : GTree) (p q : List String) :
    findGroup t (p ++ q) = (findGroup t p).bind (fun n => findGroup n q) := by
  induction p generalizing t with
  | nil => simp
  | cons a ps ih =>
    cases hget : assocGet a t.subgroups with
    | some c =>
      rw [List.cons_append, findGroup_cons_some hget, findGroup_cons_some hget, ih]
    | none =>
      rw [List.cons_append, findGroup_cons_none hget, findGroup_cons_none hget]
      rfl

/-! ## Nodes exist only along inserted paths -/

theorem findGroup_insertCmd_origin (cmd : CommandConfig) :
    ∀ (segs cur p : List String) (t : GTree),
      (findGroup (insertCmd cmd segs cur t) p).isSome = true →
      (findGroup t p).isSome = true ∨ segs.take p.length = p := by
  intro segs
  induction segs with
  | nil =>
    intro cur p t hf
    obtain ⟨l, s, sub, cs⟩ := t
    cases p with
    | nil => simp
    | cons q ps =>
      left
      exact hf
  | cons a rest ih =>
    intro cur p t hf
    obtain ⟨l, s, sub, cs⟩ := t
    cases p with
    | nil => simp
    | cons q ps =>
      cases hget : assocGet a sub with
      | some child =>
        simp only [insertCmd, hget] at hf
        by_cases hq : q = a
        · subst hq
          have hget' : assocGet q
              (assocSet q (insertCmd cmd rest (cur ++ [q]) child) sub) =
              some (insertCmd cmd rest (cur ++ [q]) child) :=
            assocGet_assocSet_self _ hget
          rw [findGroup_cons_some
            (t := .node l s (assocSet q (insertCmd cmd rest (cur ++ [q]) child) sub) cs)
            hget'] at hf
          rcases ih (cur ++ [q]) ps child hf with h1 | h2
          · left
            rw [findGroup_cons_some (t := .node l s sub cs) hget]
            exact h1
          · right
            rw [List.length_cons, List.take_succ_cons, h2]
        · have he : assocGet q (assocSet a (insertCmd cmd rest (cur ++ [a]) child) sub) =
              assocGet q sub := assocGet_assocSet_ne hq _ _
          left
          cases hgq : assocGet q sub with
          | some c =>
            rw [findGroup_cons_some
              (t := .node l s (assocSet a (insertCmd cmd rest (cur ++ [a]) child) sub) cs)
              (he.trans hgq)] at hf
            rw [findGroup_cons_some (t := .node l s sub cs) hgq]
            exact hf
          | none =>
            rw [findGroup_cons_none
              (t := .node l s (assocSet a (insertCmd cmd rest (cur ++ [a]) child) sub) cs)
              (he.trans hgq)] at hf
            simp at hf
      | none =>
        simp only [insertCmd, hget] at hf
        by_cases hq : q = a
        · subst hq
          have hget' : assocGet q (sub ++
              [(q, insertCmd cmd rest (cur ++ [q]) (GTree.node q (cur ++ [q]) [] []))]) =
              some (insertCmd cmd rest (cur ++ [q]) (GTree.node q (cur ++ [q]) [] [])) := by
            rw [assocGet_append_of_none _ hget]
            simp [assocGet]
          rw [findGroup_cons_some (t := .node l s (sub ++
            [(q, insertCmd cmd rest (cur ++ [q]) (GTree.node q (cur ++ [q]) [] []))]) cs)
            hget'] at hf
          rcases ih (cur ++ [q]) ps _ hf with h1 | h2
          · cases ps with
            | nil =>
              right
              simp
            | cons q' ps' =>
              rw [findGroup_cons_none (t := GTree.node q (cur ++ [q]) [] []) rfl] at h1
              simp at h1
          · right
            rw [List.length_cons, List.take_succ_cons, h2]
        · have he : assocGet q (sub ++
              [(a, insertCmd cmd rest (cur ++ [a]) (GTree.node a (cur ++ [a]) [] []))]) =
              assocGet q sub := by
            cases hgq : assocGet q sub with
            | some c => exact assocGet_append_of_some _ hgq
            | none =>
              rw [assocGet_append_of_none _ hgq]
              simp only [assocGet]
              rw [if_neg (fun hh => hq hh.symm)]
          left
          cases hgq : assocGet q sub with
          | some c =>
            rw [findGroup_cons_some (t := .node l s (sub ++
              [(a, insertCmd cmd rest (cur ++ [a]) (GTree.node a (cur ++ [a]) [] []))]) cs)
              (he.trans hgq)] at hf
            rw [findGroup_cons_some (t := .node l s sub cs) hgq]
            exact hf
          | none =>
            rw [findGroup_cons_none (t := .node l s (sub ++
              [(a, insertCmd cmd rest (cur ++ [a]) (GTree.node a (cur ++ [a]) [] []))]) cs)
              (he.trans hgq)] at hf
            simp at hf

theorem findGroup_build_origin {items : List CommandConfig} {p : List String}
    (h : (findGroup (buildGroupTree items) p).isSome = true) :
    p = [] ∨ ∃ r ∈ items, (parseGroupSegments r.group).take p.length = p := by
  rw [buildGroupTree] at h
  have main : ∀ (its : List CommandConfig) (t : GTree),
      (findGroup (its.foldl (fun t cmd =>
        insertCmd cmd (parseGroupSegments cmd.group) [] t) t) p).isSome = true →
      (findGroup t p).isSome = true ∨
        ∃ r ∈ its, (parseGroupSegments r.group).take p.length = p := by
    intro its
    induction its with
    | nil =>
      intro t h
      exact Or.inl h
    | cons i is ih =>
      intro t h
      rcases ih _ h with h1 | h2
      · rcases findGroup_insertCmd_origin i _ [] p t h1 with h3 | h4
        · exact Or.inl h3
        · exact Or.inr ⟨i, List.mem_cons_self _ _, h4⟩
      · obtain ⟨r, hr, ht⟩ := h2
        exact Or.inr ⟨r, List.mem_cons_of_mem _ hr, ht⟩
  rcases main items _ h with h1 | h2
  · left
    cases p with
    | nil => rfl
    | cons q ps =>
      rw [findGroup_cons_none (t := GTree.node "" [] [] []) rfl] at h1
      simp at h1
  · exact Or.inr h2

/-! ## Parsed segments are non-empty and slash-free -/

theorem splitSlash_ne_nil (cs : List Char) : splitSlash cs ≠ [] := by
  induction cs with
  | nil => simp [splitSlash]
  | cons c rest ih =>
    by_cases h : c = '/'
    · simp [splitSlash, h]
    · simp only [splitSlash, if_neg h]
      cases hs : splitSlash rest with
      | nil => simp
      | cons s ss => simp

theorem slash_not_mem_splitSlash (cs : List Char) :
    ∀ piece ∈ splitSlash cs, '/' ∉ piece := by
  induction cs with
  | nil =>
    intro piece hp
    simp only [splitSlash, List.mem_singleton] at hp
    subst hp
    simp
  | cons c rest ih =>
    intro piece hp
    by_cases h : c = '/'
    · simp only [splitSlash, if_pos h, List.mem_cons] at hp
      rcases hp with rfl | hp2
      · simp
      · exact ih piece hp2
    · simp only [splitSlash, if_neg h] at hp
      cases hs : splitSlash rest with
      | nil => exact absurd hs (splitSlash_ne_nil rest)
      | cons s ss =>
        rw [hs] at hp
        rcases List.mem_cons.1 hp with rfl | h2
        · intro hm
          rcases List.mem_cons.1 hm with he | hm2
          · exact h he.symm
          · exact ih s (by rw [hs]; exact List.mem_cons_self _ _) hm2
        · exact ih piece (by rw [hs]; exact List.mem_cons_of_mem _ h2)

theorem mem_trimChars {cs : List Char} {x : Char} (h : x ∈ trimChars cs) : x ∈ cs := by
  unfold trimChars at h
  rw [List.mem_reverse] at h
  have h1 := (List.dropWhile_sublist _).subset h
  rw [List.mem_reverse] at h1
  exact (List.dropWhile_sublist _).subset h1

theorem parseGroupSegments_good {g : Option String} {s : String}
    (h : s ∈ parseGroupSegments g) : s ≠ "" ∧ '/' ∉ s.data := by
  cases g with
  | none => simp [parseGroupSegments] at h
  | some g =>
    rw [parseGroupSegments] at h
    by_cases hg : g = ""
    · rw [if_pos hg] at h
      simp at h
    · rw [if_neg hg] at h
      have h1 := List.mem_filter.1 h
      refine ⟨by simpa using h1.2, ?_⟩
      obtain ⟨cs, hcs, hmk⟩ := List.mem_map.1 h1.1
      rw [← hmk]
      intro hm
      exact slash_not_mem_splitSlash g.data cs hcs (mem_trimChars hm)

/-! ## The comparison is a total preorder; `createGroupNodes` facts -/

theorem leChars_total : ∀ a b, leChars a b = true ∨ leChars b a = true := by
  intro a
  induction a with
  | nil =>
    intro b
    left
    rfl
  | cons x xs ih =>
    intro b
    cases b with
    | nil =>
      right
      rfl
    | cons y ys =>
      by_cases h1 : x.toNat < y.toNat
      · left
        simp [leChars, h1]
      · by_cases h2 : y.toNat < x.toNat
        · right
          simp [leChars, h2]
        · rcases ih ys with h | h
          · left
            simp [leChars, h1, h2, h]
          · right
            simp [leChars, h2, h1, h]

theorem leChars_trans :
    ∀ a b c, leChars a b = true → leChars b c = true → leChars a c = true := by
  intro a
  induction a with
  | nil =>
    intro b c _ _
    rfl
  | cons x xs ih =>
    intro b c hab hbc
    cases b with
    | nil => simp [leChars] at hab
    | cons y ys =>
      cases c with
      | nil => simp [leChars] at hbc
      | cons z zs =>
        simp only [leChars] at hab hbc ⊢
        by_cases hxy : x.toNat < y.toNat
        · by_cases hyz : y.toNat < z.toNat
          · have hxz : x.toNat < z.toNat := Nat.lt_trans hxy hyz
            simp [hxz]
          · by_cases hzy : z.toNat < y.toNat
            · rw [if_neg hyz, if_pos hzy] at hbc
              cases hbc
            · have hyz' : y.toNat = z.toNat :=
                Nat.le_antisymm (Nat.not_lt.1 hzy) (Nat.not_lt.1 hyz)
              have hxz : x.toNat < z.toNat := hyz' ▸ hxy
              simp [hxz]
        · by_cases hyx : y.toNat < x.toNat
          · rw [if_neg hxy, if_pos hyx] at hab
            cases hab
          · have hxy' : x.toNat = y.toNat :=
              Nat.le_antisymm (Nat.not_lt.1 hyx) (Nat.not_lt.1 hxy)
            rw [if_neg hxy, if_neg hyx] at hab
            by_cases hyz : y.toNat < z.toNat
            · have hxz : x.toNat < z.toNat := hxy' ▸ hyz
              simp [hxz]
            · by_cases hzy : z.toNat < y.toNat
              · rw [if_neg hyz, if_pos hzy] at hbc
                cases hbc
              · rw [if_neg hyz, if_neg hzy] at hbc
                have h1 : ¬x.toNat < z.toNat := by
                  rw [hxy']
                  exact hyz
                have h2 : ¬z.toNat < x.toNat := by
                  rw [hxy']
                  exact hzy
                rw [if_neg h1, if_neg h2]
                exact ih ys zs hab hbc

instance : IsTotal GTree gtLE :=
  ⟨fun a b => leChars_total (a.label.data.map Char.toLower) (b.label.data.map Char.toLower)⟩

instance : IsTrans GTree gtLE :=
  ⟨fun _ _ _ hab hbc => leChars_trans _ _ _ hab hbc⟩

theorem mem_createGroupNodes_iff {sub : List (String × GTree)} {g : GroupNodeItem} :
    g ∈ createGroupNodes sub ↔
      ∃ v ∈ sub.map Prod.snd, g = ⟨v.label, v.segments, false⟩ := by
  unfold createGroupNodes
  constructor
  · intro h
    obtain ⟨v, hv, rfl⟩ := List.mem_map.1 h
    exact ⟨v, (List.perm_insertionSort gtLE _).mem_iff.1 hv, rfl⟩
  · rintro ⟨v, hv, rfl⟩
    exact List.mem_map.2 ⟨v, (List.perm_insertionSort gtLE _).mem_iff.2 hv, rfl⟩

theorem pairwise_createGroupNodes (sub : List (String × GTree)) :
    (createGroupNodes sub).Pairwise
      (fun a b => ciLE a.labelText b.labelText = true) := by
  unfold createGroupNodes
  rw [List.pairwise_map]
  exact List.sorted_insertionSort gtLE (sub.map Prod.snd)

theorem createGroupNodes_labels_perm (sub : List (String × GTree)) :
    ((createGroupNodes sub).map (fun g => g.labelText)).Perm
      ((sub.map Prod.snd).map GTree.label) := by
  unfold createGroupNodes
  rw [List.map_map]
  exact (List.perm_insertionSort gtLE _).map GTree.label

theorem createGroupNodes_segments_perm (sub : List (String × GTree)) :
    ((createGroupNodes sub).map (fun g => g.segments)).Perm
      ((sub.map Prod.snd).map GTree.segments) := by
  unfold createGroupNodes
  rw [List.map_map]
  exact (List.perm_insertionSort gtLE _).map GTree.segments

/-! ## Subgroups of a node of a built tree -/

theorem keysAt_of_findGroup {t : GTree} {p : List String} {n : GTree}
    (h : findGroup t p = some n) : keysAt t p = n.subgroups.map Prod.fst := by
  unfold keysAt
  rw [h]

theorem commandsAt_of_findGroup {t : GTree} {p : List String} {n : GTree}
    (h : findGroup t p = some n) : commandsAt t p = n.commands := by
  unfold commandsAt
  rw [h]

theorem subgroup_keys_of_build {items : List CommandConfig} {base : List String}
    {n : GTree} (hn : findGroup (buildGroupTree items) base = some n) :
    n.subgroups.map Prod.fst = childKeysAt items base := by
  rw [← keysAt_of_findGroup hn, keysAt_buildGroupTree]

theorem subgroup_values_of_build {items : List CommandConfig} {base : List String}
    {n : GTree} (hn : findGroup (buildGroupTree items) base = some n) :
    ∀ kv ∈ n.subgroups,
      (kv.2 : GTree).label = kv.1 ∧ (kv.2 : GTree).segments = base ++ [kv.1] ∧
        findGroup (buildGroupTree items) (base ++ [kv.1]) = some kv.2 := by
  intro kv hkv
  have hnodup : (n.subgroups.map Prod.fst).Nodup := by
    rw [subgroup_keys_of_build hn]
    exact childKeysAt_nodup items base
  obtain ⟨k, v⟩ := kv
  have hget : assocGet k n.subgroups = some v := assocGet_of_mem_nodup hnodup hkv
  have hfind : findGroup (buildGroupTree items) (base ++ [k]) = some v := by
    rw [findGroup_append, hn, Option.some_bind, findGroup_cons_some hget]
    rfl
  exact ⟨label_findGroup_build hfind, segments_findGroup_build hfind, hfind⟩

/-! ## Equation lemmas for `getChildren` -/

theorem getChildren_none_flat {items : List CommandConfig}
    (h : (buildGroupTree items).subgroups = []) :
    getChildren items none = (buildGroupTree items).commands.map .command := by
  simp only [getChildren]
  rw [if_pos (by simpa [List.isEmpty_iff] using h)]

theorem getChildren_none_groups {items : List CommandConfig}
    (h : (buildGroupTree items).subgroups ≠ []) :
    getChildren items none =
      (if (buildGroupTree items).commands.isEmpty then
        (createGroupNodes (buildGroupTree items).subgroups).map .group
      else .group ungroupedItem ::
        (createGroupNodes (buildGroupTree items).subgroups).map .group) := by
  simp only [getChildren]
  rw [if_neg (by simpa [List.isEmpty_iff] using h)]

theorem getChildren_group_ungrouped {items : List CommandConfig} {g : GroupNodeItem}
    (h : g.isUngrouped = true) :
    getChildren items (some (.group g)) = (buildGroupTree items).commands.map .command := by
  simp only [getChildren]
  rw [if_pos h]

theorem getChildren_group_unresolved {items : List CommandConfig} {g : GroupNodeItem}
    (hg : g.isUngrouped = false)
    (h : findGroup (buildGroupTree items) g.segments = none) :
    getChildren items (some (.group g)) = [] := by
  simp only [getChildren]
  rw [if_neg (by simp [hg]), h]

theorem getChildren_group_resolved {items : List CommandConfig} {g : GroupNodeItem}
    {n : GTree} (hg : g.isUngrouped = false)
    (h : findGroup (buildGroupTree items) g.segments = some n) :
    getChildren items (some (.group g)) =
      (createGroupNodes n.subgroups).map .group ++ n.commands.map .command := by
  simp only [getChildren]
  rw [if_neg (by simp [hg]), h]

theorem getChildren_command (items : List CommandConfig) (c : CommandConfig) :
    getChildren items (some (.command c)) = [] := rfl

theorem buildGroupTree_commands (items : List CommandConfig) :
    (buildGroupTree items).commands =
      items.filter (fun r => decide (parseGroupSegments r.group = [])) := by
  rw [← commandsAt_nil, commandsAt_buildGroupTree]

theorem buildGroupTree_keys (items : List CommandConfig) :
    (buildGroupTree items).subgroups.map Prod.fst = childKeysAt items [] :=
  subgroup_keys_of_build (findGroup_nil _)

theorem buildGroupTree_subgroups_ne_nil {items : List CommandConfig}
    {r : CommandConfig} (hr : r ∈ items)
    (hg : parseGroupSegments r.group ≠ []) :
    (buildGroupTree items).subgroups ≠ [] := by
  intro hnil
  have hkey : (parseGroupSegments r.group).getD 0 "" ∈ childKeysAt items [] :=
    mem_childKeysAt hr (by simpa [List.length_pos] using hg) (by simp)
  rw [← buildGroupTree_keys, hnil] at hkey
  simp at hkey

/-! ## Which queries return a given command leaf -/

theorem mem_command_getChildren {items : List CommandConfig} {r : CommandConfig}
    {q : Option TreeItem} :
    TreeItem.command r ∈ getChildren items q ↔
      (q = none ∧ (buildGroupTree items).subgroups = [] ∧ r ∈ items ∧
        parseGroupSegments r.group = []) ∨
      (∃ g, q = some (.group g) ∧ g.isUngrouped = true ∧ r ∈ items ∧
        parseGroupSegments r.group = []) ∨
      (∃ g, q = some (.group g) ∧ g.isUngrouped = false ∧ r ∈ items ∧
        parseGroupSegments r.group = g.segments) := by
  cases q with
  | none =>
    by_cases hsub : (buildGroupTree items).subgroups = []
    · rw [getChildren_none_flat hsub, buildGroupTree_commands]
      constructor
      · intro h
        obtain ⟨r', hr', he⟩ := List.mem_map.1 h
        obtain rfl : r' = r := by simpa using he
        have h2 := List.mem_filter.1 hr'
        exact Or.inl ⟨rfl, hsub, h2.1, by simpa using h2.2⟩
      · rintro (⟨-, -, h1, h2⟩ | ⟨g, hg, -⟩ | ⟨g, hg, -⟩)
        · exact List.mem_map.2 ⟨r, List.mem_filter.2 ⟨h1, by simpa using h2⟩, rfl⟩
        · cases hg
        · cases hg
    · rw [getChildren_none_groups hsub]
      constructor
      · intro h
        exfalso
        by_cases he : (buildGroupTree items).commands.isEmpty
        · rw [if_pos he] at h
          simp at h
        · rw [if_neg he] at h
          simp at h
      · rintro (⟨-, h2, -⟩ | ⟨g, hg, -⟩ | ⟨g, hg, -⟩)
        · exact absurd h2 hsub
        · cases hg
        · cases hg
  | some ti =>
    cases ti with
    | group g =>
      cases hug : g.isUngrouped with
      | true =>
        rw [getChildren_group_ungrouped hug, buildGroupTree_commands]
        constructor
        · intro h
          obtain ⟨r', hr', he⟩ := List.mem_map.1 h
          obtain rfl : r' = r := by simpa using he
          have h2 := List.mem_filter.1 hr'
          exact Or.inr (Or.inl ⟨g, rfl, hug, h2.1, by simpa using h2.2⟩)
        · rintro (⟨hq, -⟩ | ⟨g', hq, -, h1, h2⟩ | ⟨g', hq, hg', -⟩)
          · cases hq
          · obtain rfl : g = g' := by simpa using hq
            exact List.mem_map.2 ⟨r, List.mem_filter.2 ⟨h1, by simpa using h2⟩, rfl⟩
          · obtain rfl : g = g' := by simpa using hq
            rw [hug] at hg'
            cases hg'
      | false =>
        cases hf : findGroup (buildGroupTree items) g.segments with
        | none =>
          rw [getChildren_group_unresolved hug hf]
          constructor
          · intro h
            simp at h
          · rintro (⟨hq, -⟩ | ⟨g', hq, hg', -⟩ | ⟨g', hq, -, h1, h2⟩)
            · cases hq
            · obtain rfl : g = g' := by simpa using hq
              rw [hug] at hg'
              cases hg'
            · obtain rfl : g = g' := by simpa using hq
              have hne : commandsAt (buildGroupTree items) g.segments ≠ [] := by
                intro hnil
                have := mem_commandsAt_build.2 ⟨h1, h2⟩
                rw [hnil] at this
                simp at this
              obtain ⟨n, hn⟩ := findGroup_isSome_of_commandsAt_ne_nil hne
              rw [hf] at hn
              cases hn
        | some n =>
          rw [getChildren_group_resolved hug hf]
          constructor
          · intro h
            rcases List.mem_append.1 h with h1 | h2
            · exfalso
              simp at h1
            · obtain ⟨r', hr', he⟩ := List.mem_map.1 h2
              have he2 : r' = r := by simpa using he
              rw [he2] at hr'
              have hmem : r ∈ commandsAt (buildGroupTree items) g.segments := by
                rw [commandsAt_of_findGroup hf]
                exact hr'
              have h3 := mem_commandsAt_build.1 hmem
              exact Or.inr (Or.inr ⟨g, rfl, hug, h3.1, h3.2⟩)
          · rintro (⟨hq, -⟩ | ⟨g', hq, hg', -⟩ | ⟨g', hq, -, h1, h2⟩)
            · cases hq
            · obtain rfl : g = g' := by simpa using hq
              rw [hug] at hg'
              cases hg'
            · obtain rfl : g = g' := by simpa using hq
              refine List.mem_append.2 (Or.inr (List.mem_map.2 ⟨r, ?_, rfl⟩))
              rw [← commandsAt_of_findGroup hf]
              exact mem_commandsAt_build.2 ⟨h1, h2⟩
    | command c =>
      rw [getChildren_command]
      constructor
      · intro h
        simp at h
      · rintro (⟨hq, -⟩ | ⟨g', hq, -⟩ | ⟨g', hq, -⟩)
        · cases hq
        · simp at hq
        · simp at hq

theorem findGroup_of_append_some {t : GTree} {p q : List String} {n : GTree}
    (h : findGroup t (p ++ q) = some n) :
    ∃ m, findGroup t p = some m ∧ findGroup m q = some n := by
  rw [findGroup_append] at h
  cases hf : findGroup t p with
  | none =>
    rw [hf] at h
    cases h
  | some m =>
    rw [hf, Option.some_bind] at h
    exact ⟨m, rfl, h⟩

theorem assocGet_of_findGroup_single {t : GTree} {k : String} {n : GTree}
    (h : findGroup t [k] = some n) : assocGet k t.subgroups = some n := by
  cases hget : assocGet k t.subgroups with
  | some c =>
    rw [findGroup_cons_some hget] at h
    cases h
    rfl
  | none =>
    rw [findGroup_cons_none hget] at h
    cases h

theorem group_mem_getChildren_none {items : List CommandConfig} {g : GroupNodeItem}
    (hsub : (buildGroupTree items).subgroups ≠ [])
    (h : g ∈ createGroupNodes (buildGroupTree items).subgroups) :
    TreeItem.group g ∈ getChildren items none := by
  rw [getChildren_none_groups hsub]
  by_cases he : (buildGroupTree items).commands.isEmpty
  · rw [if_pos he]
    exact List.mem_map.2 ⟨g, h, rfl⟩
  · rw [if_neg he]
    exact List.mem_cons_of_mem _ (List.mem_map.2 ⟨g, h, rfl⟩)

theorem childKeysAt_of_flat {items : List CommandConfig}
    (h : ∀ r ∈ items, parseGroupSegments r.group = []) (p : List String) :
    childKeysAt items p = [] := by
  rw [childKeysAt]
  have main : ∀ (its : List CommandConfig), (∀ r ∈ its, parseGroupSegments r.group = []) →
      ∀ acc : List String, its.foldl (fun acc r =>
        let segs := parseGroupSegments r.group
        if p.length < segs.length ∧ segs.take p.length = p then
          (if segs.getD p.length "" ∈ acc then acc
            else acc ++ [segs.getD p.length ""])
        else acc) acc = acc := by
    intro its
    induction its with
    | nil =>
      intro _ acc
      rfl
    | cons i is ih =>
      intro hall acc
      rw [List.foldl_cons]
      have hstep : (if p.length < (parseGroupSegments i.group).length ∧
            (parseGroupSegments i.group).take p.length = p then
          (if (parseGroupSegments i.group).getD p.length "" ∈ acc then acc
            else acc ++ [(parseGroupSegments i.group).getD p.length ""])
          else acc) = acc := by
        rw [if_neg]
        rintro ⟨h1, -⟩
        rw [hall i (List.mem_cons_self _ _)] at h1
        simp at h1
      simp only
      rw [hstep]
      exact ih (fun r hr => hall r (List.mem_cons_of_mem _ hr)) acc
  exact main items h []

/-! ## Claim theorems -/

/-- C3: when no record has a non-empty parsed group, the root query returns
exactly one command leaf per record, in the original input order, and no
group-header item at all. -/
theorem flat_list_no_headers (items : List CommandConfig)
    (h : ∀ r ∈ items, parseGroupSegments r.group = []) :
    getChildren items none = items.map TreeItem.command ∧
    ∀ g : GroupNodeItem, TreeItem.group g ∉ getChildren items none := by
  have hsub : (buildGroupTree items).subgroups = [] := by
    have hkeys := buildGroupTree_keys items
    rw [childKeysAt_of_flat h] at hkeys
    exact List.map_eq_nil_iff.1 hkeys
  have heq : getChildren items none = items.map TreeItem.command := by
    rw [getChildren_none_flat hsub, buildGroupTree_commands]
    congr 1
    rw [List.filter_eq_self]
    intro r hr
    simpa using h r hr
  refine ⟨heq, ?_⟩
  intro g hg
  rw [heq] at hg
  simp at hg

/-- C3 witness: a concrete flat two-record list. -/
theorem flat_list_no_headers_witness :
    (∀ r ∈ [(⟨"L", "l();", none, none⟩ : CommandConfig),
        ⟨"M", "m();", some "d", some " "⟩],
      parseGroupSegments r.group = []) ∧
    getChildren [(⟨"L", "l();", none, none⟩ : CommandConfig),
        ⟨"M", "m();", some "d", some " "⟩] none =
      [TreeItem.command ⟨"L", "l();", none, none⟩,
        TreeItem.command ⟨"M", "m();", some "d", some " "⟩] ∧
    ∀ g : GroupNodeItem,
      TreeItem.group g ∉ getChildren [(⟨"L", "l();", none, none⟩ : CommandConfig),
        ⟨"M", "m();", some "d", some " "⟩] none := by
  have h := flat_list_no_headers
    [(⟨"L", "l();", none, none⟩ : CommandConfig), ⟨"M", "m();", some "d", some " "⟩]
    (by decide)
  exact ⟨by decide, h.1, h.2⟩

/-- C10: a query for a non-synthetic group header whose path does not resolve
in the freshly rebuilt tree returns the empty list rather than failing. -/
theorem unresolved_group_returns_empty (items : List CommandConfig)
    (g : GroupNodeItem) (hg : g.isUngrouped = false)
    (hf : findGroup (buildGroupTree items) g.segments = none) :
    getChildren items (some (.group g)) = [] :=
  getChildren_group_unresolved hg hf

/-- C10 witness: a stale header for a group that no longer exists. -/
theorem unresolved_group_returns_empty_witness :
    (⟨"Old", ["Old"], false⟩ : GroupNodeItem).isUngrouped = false ∧
    findGroup (buildGroupTree [(⟨"a", "x", none, some "G"⟩ : CommandConfig)])
      (⟨"Old", ["Old"], false⟩ : GroupNodeItem).segments = none ∧
    getChildren [(⟨"a", "x", none, some "G"⟩ : CommandConfig)]
      (some (.group ⟨"Old", ["Old"], false⟩)) = [] :=
  ⟨rfl, rfl,
    unresolved_group_returns_empty _ ⟨"Old", ["Old"], false⟩ rfl rfl⟩

/-- C5: two records identical except for groups `"A//B/"` and `"A/B"` parse to
the same segments, are placed in the same tree node, and their leaves are
returned by exactly the same `getChildren` queries: empty segments produced by
repeated or trailing slashes (after trimming) are discarded. -/
theorem path_collapsing_equiv_placement (l i : String) (d : Option String)
    (items : List CommandConfig)
    (h1 : (⟨l, i, d, some "A//B/"⟩ : CommandConfig) ∈ items)
    (h2 : (⟨l, i, d, some "A/B"⟩ : CommandConfig) ∈ items) :
    parseGroupSegments (some "A//B/") = ["A", "B"] ∧
    parseGroupSegments (some "A/B") = ["A", "B"] ∧
    (⟨l, i, d, some "A//B/"⟩ : CommandConfig) ∈
      commandsAt (buildGroupTree items) ["A", "B"] ∧
    (⟨l, i, d, some "A/B"⟩ : CommandConfig) ∈
      commandsAt (buildGroupTree items) ["A", "B"] ∧
    ∀ q : Option TreeItem,
      TreeItem.command ⟨l, i, d, some "A//B/"⟩ ∈ getChildren items q ↔
      TreeItem.command ⟨l, i, d, some "A/B"⟩ ∈ getChildren items q := by
  have hp1 : parseGroupSegments (⟨l, i, d, some "A//B/"⟩ : CommandConfig).group =
      ["A", "B"] := by
    show parseGroupSegments (some "A//B/") = ["A", "B"]
    decide
  have hp2 : parseGroupSegments (⟨l, i, d, some "A/B"⟩ : CommandConfig).group =
      ["A", "B"] := by
    show parseGroupSegments (some "A/B") = ["A", "B"]
    decide
  refine ⟨hp1, hp2, mem_commandsAt_build.2 ⟨h1, hp1⟩,
    mem_commandsAt_build.2 ⟨h2, hp2⟩, ?_⟩
  intro q
  rw [mem_command_getChildren, mem_command_getChildren, hp1, hp2]
  constructor
  · rintro (⟨hq, hs, -, hp⟩ | ⟨g, hq, hu, -, hp⟩ | ⟨g, hq, hu, -, hp⟩)
    · cases hp
    · cases hp
    · exact Or.inr (Or.inr ⟨g, hq, hu, h2, hp⟩)
  · rintro (⟨hq, hs, -, hp⟩ | ⟨g, hq, hu, -, hp⟩ | ⟨g, hq, hu, -, hp⟩)
    · cases hp
    · cases hp
    · exact Or.inr (Or.inr ⟨g, hq, hu, h1, hp⟩)

/-- C5 witness: a concrete two-record list holding both spellings. -/
theorem path_collapsing_equiv_placement_witness :
    ((⟨"x", "ix", none, some "A//B/"⟩ : CommandConfig) ∈
      [(⟨"x", "ix", none, some "A//B/"⟩ : CommandConfig),
        ⟨"x", "ix", none, some "A/B"⟩]) ∧
    ((⟨"x", "ix", none, some "A/B"⟩ : CommandConfig) ∈
      [(⟨"x", "ix", none, some "A//B/"⟩ : CommandConfig),
        ⟨"x", "ix", none, some "A/B"⟩]) ∧
    (parseGroupSegments (some "A//B/") = ["A", "B"] ∧
      parseGroupSegments (some "A/B") = ["A", "B"] ∧
      (⟨"x", "ix", none, some "A//B/"⟩ : CommandConfig) ∈
        commandsAt (buildGroupTree
          [(⟨"x", "ix", none, some "A//B/"⟩ : CommandConfig),
            ⟨"x", "ix", none, some "A/B"⟩]) ["A", "B"] ∧
      (⟨"x", "ix", none, some "A/B"⟩ : CommandConfig) ∈
        commandsAt (buildGroupTree
          [(⟨"x", "ix", none, some "A//B/"⟩ : CommandConfig),
            ⟨"x", "ix", none, some "A/B"⟩]) ["A", "B"] ∧
      ∀ q : Option TreeItem,
        TreeItem.command ⟨"x", "ix", none, some "A//B/"⟩ ∈
          getChildren [(⟨"x", "ix", none, some "A//B/"⟩ : CommandConfig),
            ⟨"x", "ix", none, some "A/B"⟩] q ↔
        TreeItem.command ⟨"x", "ix", none, some "A/B"⟩ ∈
          getChildren [(⟨"x", "ix", none, some "A//B/"⟩ : CommandConfig),
            ⟨"x", "ix", none, some "A/B"⟩] q) :=
  ⟨by decide, by decide,
    path_collapsing_equiv_placement "x" "ix" none _ (by decide) (by decide)⟩

theorem buildGroupTree_commands_isEmpty_iff (items : List CommandConfig) :
    (buildGroupTree items).commands.isEmpty = true ↔
      ¬∃ r ∈ items, parseGroupSegments r.group = [] := by
  rw [buildGroupTree_commands, List.isEmpty_iff, List.filter_eq_nil_iff]
  constructor
  · rintro hall ⟨r, hr, hp⟩
    exact hall r hr (by simpa using hp)
  · intro hne r hr
    simp only [decide_eq_true_eq]
    intro hp
    exact hne ⟨r, hr, hp⟩

/-- C2: when some record has a non-empty parsed group, the root query returns
one group header per root-level group, sorted case-insensitively, prefixed by
the synthetic "Ungrouped" header exactly when some record is root-level. -/
theorem root_headers_sorted_ungrouped (items : List CommandConfig)
    (h : ∃ r ∈ items, parseGroupSegments r.group ≠ []) :
    ∃ gs : List GroupNodeItem,
      getChildren items none =
        (if ∃ r ∈ items, parseGroupSegments r.group = []
          then [TreeItem.group ungroupedItem] else []) ++ gs.map TreeItem.group ∧
      gs.Pairwise (fun a b => ciLE a.labelText b.labelText = true) ∧
      (∀ g ∈ gs, g.isUngrouped = false ∧ g.segments = [g.labelText]) ∧
      (gs.map (fun g => g.labelText)).Perm (childKeysAt items []) := by
  obtain ⟨r0, hr0, hg0⟩ := h
  have hsub := buildGroupTree_subgroups_ne_nil hr0 hg0
  refine ⟨createGroupNodes (buildGroupTree items).subgroups, ?_,
    pairwise_createGroupNodes _, ?_, ?_⟩
  · rw [getChildren_none_groups hsub]
    by_cases hex : ∃ r ∈ items, parseGroupSegments r.group = []
    · have he : ¬(buildGroupTree items).commands.isEmpty = true := fun hh =>
        (buildGroupTree_commands_isEmpty_iff items).1 hh hex
      rw [if_neg he, if_pos hex, List.singleton_append]
    · have he : (buildGroupTree items).commands.isEmpty = true :=
        (buildGroupTree_commands_isEmpty_iff items).2 hex
      rw [if_pos he, if_neg hex, List.nil_append]
  · intro g hg
    obtain ⟨v, hv, rfl⟩ := mem_createGroupNodes_iff.1 hg
    obtain ⟨kv, hkv, hsnd⟩ := List.mem_map.1 hv
    have h3 := subgroup_values_of_build (findGroup_nil (buildGroupTree items)) kv hkv
    refine ⟨rfl, ?_⟩
    show v.segments = [v.label]
    rw [← hsnd, h3.1, h3.2.1]
    rfl
  · have hperm := createGroupNodes_labels_perm (buildGroupTree items).subgroups
    have hmap : ((buildGroupTree items).subgroups.map Prod.snd).map GTree.label =
        (buildGroupTree items).subgroups.map Prod.fst := by
      rw [List.map_map]
      apply List.map_congr_left
      intro kv hkv
      exact (subgroup_values_of_build (findGroup_nil _) kv hkv).1
    rw [hmap, buildGroupTree_keys] at hperm
    exact hperm

/-- C2 witness: the spec's own scenario, one grouped and one ungrouped record. -/
theorem root_headers_sorted_ungrouped_witness :
    (∃ r ∈ [(⟨"H", "h();", none, some "Headers"⟩ : CommandConfig),
        ⟨"L", "l();", none, none⟩], parseGroupSegments r.group ≠ []) ∧
    (∃ gs : List GroupNodeItem,
      getChildren [(⟨"H", "h();", none, some "Headers"⟩ : CommandConfig),
          ⟨"L", "l();", none, none⟩] none =
        (if ∃ r ∈ [(⟨"H", "h();", none, some "Headers"⟩ : CommandConfig),
              ⟨"L", "l();", none, none⟩], parseGroupSegments r.group = []
          then [TreeItem.group ungroupedItem] else []) ++ gs.map TreeItem.group ∧
      gs.Pairwise (fun a b => ciLE a.labelText b.labelText = true) ∧
      (∀ g ∈ gs, g.isUngrouped = false ∧ g.segments = [g.labelText]) ∧
      (gs.map (fun g => g.labelText)).Perm
        (childKeysAt [(⟨"H", "h();", none, some "Headers"⟩ : CommandConfig),
          ⟨"L", "l();", none, none⟩] [])) :=
  ⟨by decide, root_headers_sorted_ungrouped _ (by decide)⟩

/-- C4: querying a resolvable non-synthetic group header returns its subgroup
headers sorted case-insensitively, followed by its direct command leaves in
original input order (never sorted); both kinds appear together. -/
theorem group_children_sorted_then_commands (items : List CommandConfig)
    (g : GroupNodeItem) (hg : g.isUngrouped = false)
    (hres : (findGroup (buildGroupTree items) g.segments).isSome = true) :
    ∃ gs : List GroupNodeItem,
      getChildren items (some (.group g)) =
        gs.map TreeItem.group ++
          (items.filter (fun r =>
            decide (parseGroupSegments r.group = g.segments))).map TreeItem.command ∧
      gs.Pairwise (fun a b => ciLE a.labelText b.labelText = true) ∧
      (∀ x ∈ gs, x.isUngrouped = false ∧ x.segments = g.segments ++ [x.labelText]) ∧
      (gs.map (fun x => x.labelText)).Perm (childKeysAt items g.segments) := by
  obtain ⟨n, hn⟩ := Option.isSome_iff_exists.1 hres
  refine ⟨createGroupNodes n.subgroups, ?_, pairwise_createGroupNodes _, ?_, ?_⟩
  · rw [getChildren_group_resolved hg hn, ← commandsAt_buildGroupTree,
      commandsAt_of_findGroup hn]
  · intro x hx
    obtain ⟨v, hv, rfl⟩ := mem_createGroupNodes_iff.1 hx
    obtain ⟨kv, hkv, hsnd⟩ := List.mem_map.1 hv
    have h3 := subgroup_values_of_build hn kv hkv
    refine ⟨rfl, ?_⟩
    show v.segments = g.segments ++ [v.label]
    rw [← hsnd, h3.1, h3.2.1]
  · have hperm := createGroupNodes_labels_perm n.subgroups
    have hmap : (n.subgroups.map Prod.snd).map GTree.label =
        n.subgroups.map Prod.fst := by
      rw [List.map_map]
      apply List.map_congr_left
      intro kv hkv
      exact (subgroup_values_of_build hn kv hkv).1
    rw [hmap, subgroup_keys_of_build hn] at hperm
    exact hperm

/-- C4 witness: a node with two direct commands and one subgroup. -/
theorem group_children_sorted_then_commands_witness :
    (⟨"X", ["X"], false⟩ : GroupNodeItem).isUngrouped = false ∧
    (findGroup (buildGroupTree [(⟨"X2", "x2", none, some "X"⟩ : CommandConfig),
        ⟨"X1", "x1", none, some "X"⟩, ⟨"Y", "y", none, some "X/Y"⟩])
      (⟨"X", ["X"], false⟩ : GroupNodeItem).segments).isSome = true ∧
    (∃ gs : List GroupNodeItem,
      getChildren [(⟨"X2", "x2", none, some "X"⟩ : CommandConfig),
          ⟨"X1", "x1", none, some "X"⟩, ⟨"Y", "y", none, some "X/Y"⟩]
        (some (.group ⟨"X", ["X"], false⟩)) =
        gs.map TreeItem.group ++
          ([(⟨"X2", "x2", none, some "X"⟩ : CommandConfig),
            ⟨"X1", "x1", none, some "X"⟩, ⟨"Y", "y", none, some "X/Y"⟩].filter
              (fun r => decide (parseGroupSegments r.group =
                (⟨"X", ["X"], false⟩ : GroupNodeItem).segments))).map
            TreeItem.command ∧
      gs.Pairwise (fun a b => ciLE a.labelText b.labelText = true) ∧
      (∀ x ∈ gs, x.isUngrouped = false ∧
        x.segments = (⟨"X", ["X"], false⟩ : GroupNodeItem).segments ++
          [x.labelText]) ∧
      (gs.map (fun x => x.labelText)).Perm
        (childKeysAt [(⟨"X2", "x2", none, some "X"⟩ : CommandConfig),
          ⟨"X1", "x1", none, some "X"⟩, ⟨"Y", "y", none, some "X/Y"⟩]
          (⟨"X", ["X"], false⟩ : GroupNodeItem).segments)) :=
  ⟨rfl, rfl, group_children_sorted_then_commands _ ⟨"X", ["X"], false⟩ rfl rfl⟩

/-- C1: a record whose group parses to `[A, B, C]` is reached by querying
root, then header `A` (path `[A]`), then header `B` (path `[A, B]`), and its
leaf appears among the commands of header `C` (path `[A, B, C]`); moreover its
leaf is returned only by queries for the non-synthetic header whose segment
path is exactly `[A, B, C]`. -/
theorem groupPath_round_trip (items : List CommandConfig) (r : CommandConfig)
    (A B C : String) (hr : r ∈ items)
    (hseg : parseGroupSegments r.group = [A, B, C]) :
    TreeItem.group ⟨A, [A], false⟩ ∈ getChildren items none ∧
    TreeItem.group ⟨B, [A, B], false⟩ ∈
      getChildren items (some (.group ⟨A, [A], false⟩)) ∧
    TreeItem.group ⟨C, [A, B, C], false⟩ ∈
      getChildren items (some (.group ⟨B, [A, B], false⟩)) ∧
    TreeItem.command r ∈ getChildren items (some (.group ⟨C, [A, B, C], false⟩)) ∧
    ∀ q : Option TreeItem, TreeItem.command r ∈ getChildren items q →
      ∃ g : GroupNodeItem, q = some (TreeItem.group g) ∧ g.isUngrouped = false ∧
        g.segments = [A, B, C] := by
  have hcmd : r ∈ commandsAt (buildGroupTree items) [A, B, C] :=
    mem_commandsAt_build.2 ⟨hr, hseg⟩
  have hne : commandsAt (buildGroupTree items) [A, B, C] ≠ [] :=
    List.ne_nil_of_mem hcmd
  obtain ⟨n3, hn3⟩ := findGroup_isSome_of_commandsAt_ne_nil hne
  obtain ⟨n2, hn2, hn23⟩ :=
    findGroup_of_append_some (p := [A, B]) (q := [C]) hn3
  obtain ⟨n1, hn1, hn12⟩ :=
    findGroup_of_append_some (p := [A]) (q := [B]) hn2
  have hl1 : n1.label = A := label_findGroup_build
    (show findGroup (buildGroupTree items) ([] ++ [A]) = some n1 from hn1)
  have hs1 : n1.segments = [A] := segments_findGroup_build hn1
  have hl2 : n2.label = B := label_findGroup_build
    (show findGroup (buildGroupTree items) ([A] ++ [B]) = some n2 from hn2)
  have hs2 : n2.segments = [A, B] := segments_findGroup_build hn2
  have hl3 : n3.label = C := label_findGroup_build
    (show findGroup (buildGroupTree items) ([A, B] ++ [C]) = some n3 from hn3)
  have hs3 : n3.segments = [A, B, C] := segments_findGroup_build hn3
  have hsub : (buildGroupTree items).subgroups ≠ [] :=
    buildGroupTree_subgroups_ne_nil hr (by rw [hseg]; simp)
  refine ⟨?_, ?_, ?_, ?_, ?_⟩
  · apply group_mem_getChildren_none hsub
    apply mem_createGroupNodes_iff.2
    refine ⟨n1, ?_, by rw [hl1, hs1]⟩
    exact List.mem_map.2
      ⟨(A, n1), mem_of_assocGet_some (assocGet_of_findGroup_single hn1), rfl⟩
  · rw [getChildren_group_resolved rfl hn1]
    refine List.mem_append.2 (Or.inl (List.mem_map.2 ⟨⟨B, [A, B], false⟩, ?_, rfl⟩))
    apply mem_createGroupNodes_iff.2
    refine ⟨n2, ?_, by rw [hl2, hs2]⟩
    exact List.mem_map.2
      ⟨(B, n2), mem_of_assocGet_some (assocGet_of_findGroup_single hn12), rfl⟩
  · rw [getChildren_group_resolved rfl hn2]
    refine List.mem_append.2 (Or.inl (List.mem_map.2 ⟨⟨C, [A, B, C], false⟩, ?_, rfl⟩))
    apply mem_createGroupNodes_iff.2
    refine ⟨n3, ?_, by rw [hl3, hs3]⟩
    exact List.mem_map.2
      ⟨(C, n3), mem_of_assocGet_some (assocGet_of_findGroup_single hn23), rfl⟩
  · rw [getChildren_group_resolved rfl hn3]
    refine List.mem_append.2 (Or.inr (List.mem_map.2 ⟨r, ?_, rfl⟩))
    rw [← commandsAt_of_findGroup hn3]
    exact hcmd
  · intro q hq
    rcases mem_command_getChildren.1 hq with
      ⟨-, -, -, hp⟩ | ⟨g, -, -, -, hp⟩ | ⟨g, hqe, hgu, -, hp⟩
    · rw [hseg] at hp
      cases hp
    · rw [hseg] at hp
      cases hp
    · exact ⟨g, hqe, hgu, by rw [← hp, hseg]⟩

/-- C1 witness: a single record with group `"A/B/C"`. -/
theorem groupPath_round_trip_witness :
    ((⟨"x", "ix", none, some "A/B/C"⟩ : CommandConfig) ∈
      [(⟨"x", "ix", none, some "A/B/C"⟩ : CommandConfig)]) ∧
    parseGroupSegments (⟨"x", "ix", none, some "A/B/C"⟩ : CommandConfig).group =
      ["A", "B", "C"] ∧
    (TreeItem.group ⟨"A", ["A"], false⟩ ∈
      getChildren [(⟨"x", "ix", none, some "A/B/C"⟩ : CommandConfig)] none ∧
    TreeItem.group ⟨"B", ["A", "B"], false⟩ ∈
      getChildren [(⟨"x", "ix", none, some "A/B/C"⟩ : CommandConfig)]
        (some (.group ⟨"A", ["A"], false⟩)) ∧
    TreeItem.group ⟨"C", ["A", "B", "C"], false⟩ ∈
      getChildren [(⟨"x", "ix", none, some "A/B/C"⟩ : CommandConfig)]
        (some (.group ⟨"B", ["A", "B"], false⟩)) ∧
    TreeItem.command ⟨"x", "ix", none, some "A/B/C"⟩ ∈
      getChildren [(⟨"x", "ix", none, some "A/B/C"⟩ : CommandConfig)]
        (some (.group ⟨"C", ["A", "B", "C"], false⟩)) ∧
    ∀ q : Option TreeItem,
      TreeItem.command ⟨"x", "ix", none, some "A/B/C"⟩ ∈
        getChildren [(⟨"x", "ix", none, some "A/B/C"⟩ : CommandConfig)] q →
      ∃ g : GroupNodeItem, q = some (TreeItem.group g) ∧ g.isUngrouped = false ∧
        g.segments = ["A", "B", "C"]) :=
  ⟨by decide, by decide,
    groupPath_round_trip [(⟨"x", "ix", none, some "A/B/C"⟩ : CommandConfig)]
      ⟨"x", "ix", none, some "A/B/C"⟩ "A" "B" "C" (by decide) (by decide)⟩

/-! ## Identity strings: `joinSlash` is injective on slash-free segment paths -/

theorem split_marker_inj : ∀ {l1 l2 r1 r2 : List Char}, '/' ∉ l1 → '/' ∉ l2 →
    l1 ++ '/' :: r1 = l2 ++ '/' :: r2 → l1 = l2 ∧ r1 = r2 := by
  intro l1
  induction l1 with
  | nil =>
    intro l2 r1 r2 h1 h2 he
    cases l2 with
    | nil =>
      rw [List.nil_append, List.nil_append] at he
      injection he with _ htl
      exact ⟨rfl, htl⟩
    | cons c l2' =>
      rw [List.nil_append, List.cons_append] at he
      injection he with hc htl
      exfalso
      apply h2
      rw [← hc]
      exact List.mem_cons_self _ _
  | cons x l1' ih =>
    intro l2 r1 r2 h1 h2 he
    cases l2 with
    | nil =>
      rw [List.cons_append, List.nil_append] at he
      injection he with hc htl
      exfalso
      apply h1
      rw [hc]
      exact List.mem_cons_self _ _
    | cons y l2' =>
      rw [List.cons_append, List.cons_append] at he
      injection he with hxy htl
      obtain ⟨hl, hr⟩ := ih (fun hm => h1 (List.mem_cons_of_mem _ hm))
        (fun hm => h2 (List.mem_cons_of_mem _ hm)) htl
      exact ⟨by rw [hxy, hl], hr⟩

theorem joinSlash_cons₂ (a b : String) (t : List String) :
    joinSlash (a :: b :: t) = a ++ "/" ++ joinSlash (b :: t) := rfl

theorem slash_mem_joinSlash₂ (a b : String) (t : List String) :
    ('/' : Char) ∈ (joinSlash (a :: b :: t)).data := by
  rw [joinSlash_cons₂, String.data_append, String.data_append]
  exact List.mem_append_left _ (List.mem_append_right _ (by decide))

theorem joinSlash_inj : ∀ (p1 p2 : List String),
    (∀ s ∈ p1, s ≠ "" ∧ '/' ∉ s.data) →
    (∀ s ∈ p2, s ≠ "" ∧ '/' ∉ s.data) →
    joinSlash p1 = joinSlash p2 → p1 = p2 := by
  intro p1
  induction p1 with
  | nil =>
    intro p2 h1 h2 he
    cases p2 with
    | nil => rfl
    | cons b t2 =>
      cases t2 with
      | nil => exact absurd he.symm (h2 b (List.mem_singleton.2 rfl)).1
      | cons c t2' =>
        exfalso
        have hm := slash_mem_joinSlash₂ b c t2'
        rw [← he] at hm
        simp [joinSlash] at hm
  | cons a t1 ih =>
    intro p2 h1 h2 he
    cases t1 with
    | nil =>
      cases p2 with
      | nil => exact absurd he (h1 a (List.mem_singleton.2 rfl)).1
      | cons b t2 =>
        cases t2 with
        | nil =>
          rw [show joinSlash [a] = a from rfl, show joinSlash [b] = b from rfl] at he
          rw [he]
        | cons c t2' =>
          exfalso
          have hm := slash_mem_joinSlash₂ b c t2'
          rw [← he] at hm
          exact (h1 a (List.mem_singleton.2 rfl)).2 hm
    | cons a' t1' =>
      cases p2 with
      | nil =>
        exfalso
        have hm := slash_mem_joinSlash₂ a a' t1'
        rw [he] at hm
        simp [joinSlash] at hm
      | cons b t2 =>
        cases t2 with
        | nil =>
          exfalso
          have hm := slash_mem_joinSlash₂ a a' t1'
          rw [he] at hm
          exact (h2 b (List.mem_singleton.2 rfl)).2 hm
        | cons b' t2' =>
          rw [joinSlash_cons₂, joinSlash_cons₂] at he
          have hd := congrArg String.data he
          rw [String.data_append, String.data_append, String.data_append,
            String.data_append, List.append_assoc, List.append_assoc] at hd
          obtain ⟨hab, hjj⟩ := split_marker_inj
            (h1 a (List.mem_cons_self _ _)).2 (h2 b (List.mem_cons_self _ _)).2
            (by simpa using hd)
          have hab' : a = b := by
            apply String.ext
            exact hab
          have hjoin : joinSlash (a' :: t1') = joinSlash (b' :: t2') := by
            apply String.ext
            exact hjj
          have ht := ih (b' :: t2') (fun s hs => h1 s (List.mem_cons_of_mem _ hs))
            (fun s hs => h2 s (List.mem_cons_of_mem _ hs)) hjoin
          rw [hab', ht]

theorem joinSlash_singleton_of_slash_free {p : List String} {s : String}
    (hgood : ∀ x ∈ p, x ≠ "" ∧ '/' ∉ x.data) (hne : p ≠ [])
    (hs : '/' ∉ s.data) (he : joinSlash p = s) : p = [s] := by
  cases p with
  | nil => exact absurd rfl hne
  | cons a t =>
    cases t with
    | nil =>
      rw [show joinSlash [a] = a from rfl] at he
      rw [he]
    | cons b t' =>
      exfalso
      have hm := slash_mem_joinSlash₂ a b t'
      rw [he] at hm
      exact hs hm

/-! ## Which group headers are ever displayed -/

theorem good_segments_of_resolvable {items : List CommandConfig} {p : List String}
    (hres : (findGroup (buildGroupTree items) p).isSome = true) (hne : p ≠ []) :
    ∀ s ∈ p, s ≠ "" ∧ '/' ∉ s.data := by
  rcases findGroup_build_origin hres with rfl | ⟨r, hr, htake⟩
  · exact absurd rfl hne
  · intro s hs
    apply parseGroupSegments_good (g := r.group)
    have hsub : p ⊆ parseGroupSegments r.group := by
      rw [← htake]
      exact List.take_subset _ _
    exact hsub hs

theorem joinSlash_ne_empty {p : List String} (hne : p ≠ [])
    (hgood : ∀ s ∈ p, s ≠ "" ∧ '/' ∉ s.data) : joinSlash p ≠ "" := by
  cases p with
  | nil => exact absurd rfl hne
  | cons a t =>
    cases t with
    | nil => exact (hgood a (List.mem_singleton.2 rfl)).1
    | cons b t' =>
      intro he
      have hm := slash_mem_joinSlash₂ a b t'
      rw [he] at hm
      simp at hm

theorem mem_createGroupNodes_build {items : List CommandConfig} {base : List String}
    {n0 : GTree} (hn0 : findGroup (buildGroupTree items) base = some n0)
    {g : GroupNodeItem} (hg : g ∈ createGroupNodes n0.subgroups) :
    g.isUngrouped = false ∧ g.segments ≠ [] ∧
      ∃ n, findGroup (buildGroupTree items) g.segments = some n ∧
        g.labelText = n.label := by
  obtain ⟨v, hv, rfl⟩ := mem_createGroupNodes_iff.1 hg
  obtain ⟨kv, hkv, hsnd⟩ := List.mem_map.1 hv
  have h3 := subgroup_values_of_build hn0 kv hkv
  refine ⟨rfl, ?_, kv.2, ?_, ?_⟩
  · show v.segments ≠ []
    rw [← hsnd, h3.2.1]
    simp
  · show findGroup _ v.segments = some kv.2
    rw [← hsnd, h3.2.1]
    exact h3.2.2
  · show v.label = kv.2.label
    rw [← hsnd]

theorem mem_group_getChildren {items : List CommandConfig} {g : GroupNodeItem}
    {q : Option TreeItem} (h : TreeItem.group g ∈ getChildren items q) :
    g = ungroupedItem ∨
    (g.isUngrouped = false ∧ g.segments ≠ [] ∧
      ∃ n, findGroup (buildGroupTree items) g.segments = some n ∧
        g.labelText = n.label) := by
  cases q with
  | none =>
    by_cases hsub : (buildGroupTree items).subgroups = []
    · rw [getChildren_none_flat hsub] at h
      exfalso
      simp at h
    · rw [getChildren_none_groups hsub] at h
      by_cases he : (buildGroupTree items).commands.isEmpty
      · rw [if_pos he] at h
        obtain ⟨g', hg', hge⟩ := List.mem_map.1 h
        have hge' : g' = g := by simpa using hge
        exact Or.inr (hge' ▸ mem_createGroupNodes_build (findGroup_nil _) hg')
      · rw [if_neg he] at h
        rcases List.mem_cons.1 h with h1 | h2
        · left
          have : ungroupedItem = g := by simpa using h1.symm
          exact this.symm
        · obtain ⟨g', hg', hge⟩ := List.mem_map.1 h2
          have hge' : g' = g := by simpa using hge
          exact Or.inr (hge' ▸ mem_createGroupNodes_build (findGroup_nil _) hg')
  | some ti =>
    cases ti with
    | group gq =>
      cases hug : gq.isUngrouped with
      | true =>
        rw [getChildren_group_ungrouped hug] at h
        exfalso
        simp at h
      | false =>
        cases hf : findGroup (buildGroupTree items) gq.segments with
        | none =>
          rw [getChildren_group_unresolved hug hf] at h
          exfalso
          simp at h
        | some n0 =>
          rw [getChildren_group_resolved hug hf] at h
          rcases List.mem_append.1 h with h1 | h2
          · obtain ⟨g', hg', hge⟩ := List.mem_map.1 h1
            have hge' : g' = g := by simpa using hge
            exact Or.inr (hge' ▸ mem_createGroupNodes_build hf hg')
          · exfalso
            simp at h2
    | command c =>
      rw [getChildren_command] at h
      exfalso
      simp at h

/-- C6 counterexample: with one root-level record and one record grouped
`"__commandDictionaryUngrouped__"`, the root query displays both the synthetic
"Ungrouped" header and the real group header, two distinct items sharing the
identity string `"__commandDictionaryUngrouped__"`. -/
theorem group_header_id_collision :
    TreeItem.group ungroupedItem ∈ getChildren
      [(⟨"a", "x", none, none⟩ : CommandConfig),
        ⟨"b", "y", none, some "__commandDictionaryUngrouped__"⟩] none ∧
    TreeItem.group ⟨"__commandDictionaryUngrouped__",
        ["__commandDictionaryUngrouped__"], false⟩ ∈ getChildren
      [(⟨"a", "x", none, none⟩ : CommandConfig),
        ⟨"b", "y", none, some "__commandDictionaryUngrouped__"⟩] none ∧
    (⟨"__commandDictionaryUngrouped__", ["__commandDictionaryUngrouped__"],
        false⟩ : GroupNodeItem) ≠ ungroupedItem ∧
    GroupNodeItem.id ⟨"__commandDictionaryUngrouped__",
        ["__commandDictionaryUngrouped__"], false⟩ =
      GroupNodeItem.id ungroupedItem := by
  refine ⟨by decide, by decide, by decide, by decide⟩

/-- C6 amended: every displayed non-synthetic group header's identity is its
segment path joined by `'/'`, the synthetic header's identity is the fixed
sentinel (in particular distinct from a group literally named "Ungrouped"),
and two distinct displayed headers share an identity only when one is the
synthetic header and the other is the root group literally named
`"__commandDictionaryUngrouped__"`. -/
theorem group_header_id_unique_amended (items : List CommandConfig)
    (q1 q2 : Option TreeItem) (g1 g2 : GroupNodeItem)
    (h1 : TreeItem.group g1 ∈ getChildren items q1)
    (h2 : TreeItem.group g2 ∈ getChildren items q2)
    (hne : g1 ≠ g2) :
    (g1.isUngrouped = false → g1.id = joinSlash g1.segments) ∧
    (g1.isUngrouped = true → g1.id = ungroupedSentinel) ∧
    ungroupedItem.id ≠ GroupNodeItem.id ⟨"Ungrouped", ["Ungrouped"], false⟩ ∧
    (g1.id = g2.id →
      (g1 = ungroupedItem ∧ g2.segments = [ungroupedSentinel]) ∨
      (g2 = ungroupedItem ∧ g1.segments = [ungroupedSentinel])) := by
  have idreal : ∀ g : GroupNodeItem, g.isUngrouped = false → g.segments ≠ [] →
      (findGroup (buildGroupTree items) g.segments).isSome = true →
      g.id = joinSlash g.segments := by
    intro g hu hs hres
    have hgood := good_segments_of_resolvable hres hs
    have hjoin := joinSlash_ne_empty hs hgood
    rw [GroupNodeItem.id, if_neg (by simp [hu]), if_neg hjoin]
  have real_facts : ∀ g : GroupNodeItem, ∀ q : Option TreeItem,
      TreeItem.group g ∈ getChildren items q → g ≠ ungroupedItem →
      g.isUngrouped = false ∧ g.segments ≠ [] ∧
        (∃ n, findGroup (buildGroupTree items) g.segments = some n ∧
          g.labelText = n.label) := by
    intro g q hmem hgne
    rcases mem_group_getChildren hmem with h | h
    · exact absurd h hgne
    · exact h
  refine ⟨?_, ?_, by decide, ?_⟩
  · intro hu
    have hg1ne : g1 ≠ ungroupedItem := by
      intro he
      rw [he] at hu
      cases hu
    obtain ⟨-, hs, n, hn, -⟩ := real_facts g1 q1 h1 hg1ne
    exact idreal g1 hu hs (by rw [hn]; rfl)
  · intro hu
    rw [GroupNodeItem.id, if_pos hu]
  · intro hid
    by_cases hg1 : g1 = ungroupedItem
    · left
      refine ⟨hg1, ?_⟩
      have hg2ne : g2 ≠ ungroupedItem := fun he => hne (hg1.trans he.symm)
      obtain ⟨hu2, hs2, n2, hn2, -⟩ := real_facts g2 q2 h2 hg2ne
      have hid2 : g2.id = joinSlash g2.segments :=
        idreal g2 hu2 hs2 (by rw [hn2]; rfl)
      have hid1 : g1.id = ungroupedSentinel := by
        rw [hg1]
        rfl
      have hgood2 := good_segments_of_resolvable
        (p := g2.segments) (by rw [hn2]; rfl) hs2
      apply joinSlash_singleton_of_slash_free hgood2 hs2 (by decide)
      rw [← hid2, ← hid, hid1]
    · by_cases hg2 : g2 = ungroupedItem
      · right
        refine ⟨hg2, ?_⟩
        obtain ⟨hu1, hs1, n1, hn1, -⟩ := real_facts g1 q1 h1 hg1
        have hid1 : g1.id = joinSlash g1.segments :=
          idreal g1 hu1 hs1 (by rw [hn1]; rfl)
        have hid2 : g2.id = ungroupedSentinel := by
          rw [hg2]
          rfl
        have hgood1 := good_segments_of_resolvable
          (p := g1.segments) (by rw [hn1]; rfl) hs1
        apply joinSlash_singleton_of_slash_free hgood1 hs1 (by decide)
        rw [← hid1, hid, hid2]
      · exfalso
        obtain ⟨hu1, hs1, n1, hn1, hl1⟩ := real_facts g1 q1 h1 hg1
        obtain ⟨hu2, hs2, n2, hn2, hl2⟩ := real_facts g2 q2 h2 hg2
        have hid1 : g1.id = joinSlash g1.segments :=
          idreal g1 hu1 hs1 (by rw [hn1]; rfl)
        have hid2 : g2.id = joinSlash g2.segments :=
          idreal g2 hu2 hs2 (by rw [hn2]; rfl)
        have hgood1 := good_segments_of_resolvable
          (p := g1.segments) (by rw [hn1]; rfl) hs1
        have hgood2 := good_segments_of_resolvable
          (p := g2.segments) (by rw [hn2]; rfl) hs2
        have hsegeq : g1.segments = g2.segments := by
          apply joinSlash_inj _ _ hgood1 hgood2
          rw [← hid1, ← hid2, hid]
        have hneq : n1 = n2 := by
          have := hn1
          rw [hsegeq, hn2] at this
          injection this with h
          exact h.symm
        apply hne
        obtain ⟨lt1, s1, u1⟩ := g1
        obtain ⟨lt2, s2, u2⟩ := g2
        simp only [GroupNodeItem.mk.injEq]
        refine ⟨?_, by simpa using hsegeq, by simp [show u1 = false from hu1,
          show u2 = false from hu2]⟩
        have hl1' : lt1 = n1.label := hl1
        have hl2' : lt2 = n2.label := hl2
        rw [hl1', hl2', hneq]

/-- C6 amended witness: the collision scenario instantiating the amended
uniqueness statement. -/
theorem group_header_id_unique_amended_witness :
    (TreeItem.group ungroupedItem ∈ getChildren
      [(⟨"a", "x", none, none⟩ : CommandConfig),
        ⟨"b", "y", none, some "__commandDictionaryUngrouped__"⟩] none) ∧
    (TreeItem.group ⟨"__commandDictionaryUngrouped__",
        ["__commandDictionaryUngrouped__"], false⟩ ∈ getChildren
      [(⟨"a", "x", none, none⟩ : CommandConfig),
        ⟨"b", "y", none, some "__commandDictionaryUngrouped__"⟩] none) ∧
    ungroupedItem ≠
      (⟨"__commandDictionaryUngrouped__", ["__commandDictionaryUngrouped__"],
        false⟩ : GroupNodeItem) ∧
    ((ungroupedItem.isUngrouped = false →
        ungroupedItem.id = joinSlash ungroupedItem.segments) ∧
      (ungroupedItem.isUngrouped = true →
        ungroupedItem.id = ungroupedSentinel) ∧
      ungroupedItem.id ≠ GroupNodeItem.id ⟨"Ungrouped", ["Ungrouped"], false⟩ ∧
      (ungroupedItem.id = GroupNodeItem.id ⟨"__commandDictionaryUngrouped__",
          ["__commandDictionaryUngrouped__"], false⟩ →
        (ungroupedItem = ungroupedItem ∧
          (⟨"__commandDictionaryUngrouped__", ["__commandDictionaryUngrouped__"],
            false⟩ : GroupNodeItem).segments = [ungroupedSentinel]) ∨
        ((⟨"__commandDictionaryUngrouped__", ["__commandDictionaryUngrouped__"],
            false⟩ : GroupNodeItem) = ungroupedItem ∧
          ungroupedItem.segments = [ungroupedSentinel]))) :=
  ⟨by decide, by decide, by decide,
    group_header_id_unique_amended
      [(⟨"a", "x", none, none⟩ : CommandConfig),
        ⟨"b", "y", none, some "__commandDictionaryUngrouped__"⟩]
      none none ungroupedItem
      ⟨"__commandDictionaryUngrouped__", ["__commandDictionaryUngrouped__"], false⟩
      (by decide) (by decide) (by decide)⟩

/-! ## Configuration scopes, bundle loading, and insertion -/

theorem pickCandidates_all_none (defaults : List CommandConfig) :
    ∀ cs : List (Option ConfigValue), (∀ c ∈ cs, c = none) →
      pickCandidates defaults cs = defaults := by
  intro cs
  induction cs with
  | nil =>
    intro _
    rfl
  | cons c rest ih =>
    intro h
    have hc := h c (List.mem_cons_self _ _)
    subst hc
    exact ih (fun c hc => h c (List.mem_cons_of_mem _ hc))

theorem pickCandidates_first_arr (defaults v : List CommandConfig) :
    ∀ (pre post : List (Option ConfigValue)), (∀ c ∈ pre, c = none) →
      pickCandidates defaults (pre ++ some (ConfigValue.arr v) :: post) = v := by
  intro pre
  induction pre with
  | nil =>
    intro post _
    rfl
  | cons c pre' ih =>
    intro post h
    have hc := h c (List.mem_cons_self _ _)
    subst hc
    exact ih post (fun c hc => h c (List.mem_cons_of_mem _ hc))

/-- C7: the command list is the single most-specific defined scope value;
less specific scopes are never merged in, and the bundled defaults apply
exactly when no scope (or no inspection result) provides a value. -/
theorem most_specific_scope_wins (defaults : List CommandConfig) :
    getConfiguredCommands defaults none = defaults ∧
    (∀ i : InspectResult, (∀ c ∈ i.candidates, c = none) →
      getConfiguredCommands defaults (some i) = defaults) ∧
    (∀ (i : InspectResult) (pre post : List (Option ConfigValue))
        (v : List CommandConfig),
      i.candidates = pre ++ some (ConfigValue.arr v) :: post →
      (∀ c ∈ pre, c = none) →
      getConfiguredCommands defaults (some i) = v) := by
  refine ⟨rfl, ?_, ?_⟩
  · intro i hall
    show pickCandidates defaults i.candidates = defaults
    exact pickCandidates_all_none defaults _ hall
  · intro i pre post v hc hpre
    show pickCandidates defaults i.candidates = v
    rw [hc]
    exact pickCandidates_first_arr defaults v pre post hpre

/-- C7 witness: a workspace value shadows a different global value; with all
scopes empty the defaults apply. -/
theorem most_specific_scope_wins_witness :
    (InspectResult.candidates
        ⟨none, none, none, none, some (ConfigValue.arr [⟨"w", "iw", none, none⟩]),
          some (ConfigValue.arr [⟨"g", "ig", none, none⟩])⟩ =
      [none, none, none, none] ++
        some (ConfigValue.arr [⟨"w", "iw", none, none⟩]) ::
          [some (ConfigValue.arr [⟨"g", "ig", none, none⟩])]) ∧
    (∀ c ∈ ([none, none, none, none] : List (Option ConfigValue)), c = none) ∧
    getConfiguredCommands [⟨"d", "id", none, none⟩]
      (some ⟨none, none, none, none,
        some (ConfigValue.arr [⟨"w", "iw", none, none⟩]),
        some (ConfigValue.arr [⟨"g", "ig", none, none⟩])⟩) =
      [⟨"w", "iw", none, none⟩] ∧
    (∀ c ∈ (InspectResult.candidates ⟨none, none, none, none, none, none⟩),
      c = none) ∧
    getConfiguredCommands [⟨"d", "id", none, none⟩]
      (some ⟨none, none, none, none, none, none⟩) = [⟨"d", "id", none, none⟩] :=
  ⟨by decide, by decide,
    (most_specific_scope_wins [⟨"d", "id", none, none⟩]).2.2
      ⟨none, none, none, none, some (ConfigValue.arr [⟨"w", "iw", none, none⟩]),
        some (ConfigValue.arr [⟨"g", "ig", none, none⟩])⟩
      [none, none, none, none]
      [some (ConfigValue.arr [⟨"g", "ig", none, none⟩])]
      [⟨"w", "iw", none, none⟩] (by decide) (by decide),
    by decide,
    (most_specific_scope_wins [⟨"d", "id", none, none⟩]).2.1
      ⟨none, none, none, none, none, none⟩ (by decide)⟩

/-- C8: loading the default bundle never fails: a read/parse error or a
non-array parse yields the empty list, and from a parsed array exactly the
elements with string `label` and `insertText` are kept, in order. -/
theorem load_default_commands_safe :
    loadDefaultCommands none = [] ∧
    (∀ j : JValue, (∀ elems, j ≠ JValue.arr elems) →
      loadDefaultCommands (some j) = []) ∧
    (∀ elems : List JValue,
      (loadDefaultCommands (some (.arr elems))).Sublist elems ∧
      (∀ x ∈ loadDefaultCommands (some (.arr elems)), isCommandConfig x = true) ∧
      (∀ x ∈ elems, isCommandConfig x = true →
        x ∈ loadDefaultCommands (some (.arr elems)))) := by
  refine ⟨rfl, ?_, ?_⟩
  · intro j hj
    cases j with
    | arr elems => exact absurd rfl (hj elems)
    | null => rfl
    | bool b => rfl
    | num n => rfl
    | str s => rfl
    | obj fields => rfl
  · intro elems
    refine ⟨List.filter_sublist _, ?_, ?_⟩
    · intro x hx
      exact (List.mem_filter.1 hx).2
    · intro x hx hcc
      exact List.mem_filter.2 ⟨hx, hcc⟩

/-- C8 witness: a malformed (non-array) bundle and an array with one
well-shaped and two ill-shaped elements. -/
theorem load_default_commands_safe_witness :
    loadDefaultCommands none = [] ∧
    loadDefaultCommands (some JValue.null) = [] ∧
    ((loadDefaultCommands (some (JValue.arr
        [JValue.obj [("label", JValue.str "a"), ("insertText", JValue.str "x")],
          JValue.obj [("label", JValue.str "broken")],
          JValue.num 3]))).Sublist
      [JValue.obj [("label", JValue.str "a"), ("insertText", JValue.str "x")],
        JValue.obj [("label", JValue.str "broken")], JValue.num 3] ∧
    (∀ x ∈ loadDefaultCommands (some (JValue.arr
        [JValue.obj [("label", JValue.str "a"), ("insertText", JValue.str "x")],
          JValue.obj [("label", JValue.str "broken")], JValue.num 3])),
      isCommandConfig x = true) ∧
    (∀ x ∈ [JValue.obj [("label", JValue.str "a"), ("insertText", JValue.str "x")],
        JValue.obj [("label", JValue.str "broken")], JValue.num 3],
      isCommandConfig x = true →
      x ∈ loadDefaultCommands (some (JValue.arr
        [JValue.obj [("label", JValue.str "a"), ("insertText", JValue.str "x")],
          JValue.obj [("label", JValue.str "broken")], JValue.num 3])))) :=
  ⟨load_default_commands_safe.1,
    load_default_commands_safe.2.1 JValue.null (fun _ h => JValue.noConfusion h),
    load_default_commands_safe.2.2 _⟩

theorem applyEditBatch_eq_spec (text buf : List Char) :
    ∀ (sels : List Selection) (pos : Nat), selsOK buf.length pos sels = true →
      applyEditBatch buf (sels.map (mkEdit text)) =
        buf.take pos ++ specInsertAll text buf pos sels := by
  intro sels
  induction sels with
  | nil =>
    intro pos _
    show buf = buf.take pos ++ buf.drop pos
    rw [List.take_append_drop]
  | cons sel rest ih =>
    intro pos hok
    simp only [selsOK, Bool.and_eq_true, decide_eq_true_eq] at hok
    obtain ⟨⟨⟨h1, h2⟩, h3⟩, h4⟩ := hok
    have hm : mkEdit text sel = (sel.start, sel.stop, text) := by
      rw [mkEdit]
      by_cases he : sel.isEmpty
      · rw [if_pos he]
        have hse : sel.start = sel.stop := by
          simpa [Selection.isEmpty] using he
        rw [hse]
      · rw [if_neg he]
    show applyOneEdit (applyEditBatch buf (rest.map (mkEdit text)))
        (mkEdit text sel) =
      buf.take pos ++ specInsertAll text buf pos (sel :: rest)
    rw [ih sel.stop h4, hm]
    show (buf.take sel.stop ++ specInsertAll text buf sel.stop rest).take sel.start
        ++ text ++
        (buf.take sel.stop ++ specInsertAll text buf sel.stop rest).drop sel.stop =
      buf.take pos ++ specInsertAll text buf pos (sel :: rest)
    have hlen : (buf.take sel.stop).length = sel.stop := by
      rw [List.length_take]
      exact Nat.min_eq_left h3
    have htake : (buf.take sel.stop ++
        specInsertAll text buf sel.stop rest).take sel.start =
        buf.take sel.start := by
      rw [List.take_append_of_le_length (by rw [hlen]; exact h2),
        List.take_take, Nat.min_eq_left h2]
    have hdrop : (buf.take sel.stop ++
        specInsertAll text buf sel.stop rest).drop sel.stop =
        specInsertAll text buf sel.stop rest := by
      have hd := List.drop_left (buf.take sel.stop)
        (specInsertAll text buf sel.stop rest)
      rw [hlen] at hd
      exact hd
    rw [htake, hdrop, specInsertAll]
    have hsplit : buf.take pos ++ (buf.drop pos).take (sel.start - pos) =
        buf.take sel.start := by
      rw [← List.take_add]
      congr 1
      omega
    rw [← hsplit]
    simp [List.append_assoc]

/-- C9: the insert command with no active editor only shows the informational
notice and performs no edit; with an active editor it performs one atomic
edit that replaces every non-empty selection with the payload verbatim and
inserts the payload verbatim at every empty cursor position, leaving the rest
of the buffer unchanged. -/
theorem insert_command_spec (text : String) :
    insertHandler text none =
      InsertResult.noEditor "Open a text editor to insert the command." ∧
    (∀ ed : EditorState, selsOK ed.buffer.length 0 ed.selections = true →
      insertHandler text (some ed) =
        InsertResult.edited (specInsertAll text.data ed.buffer 0 ed.selections)) := by
  refine ⟨rfl, ?_⟩
  intro ed hok
  show InsertResult.edited
      (applyEditBatch ed.buffer (ed.selections.map (mkEdit text.data))) = _
  rw [applyEditBatch_eq_spec text.data ed.buffer ed.selections 0 hok]
  simp

/-- C9 witness: buffer `"hello"` with an empty cursor at offset 1 and a
non-empty selection `[2, 4)`, payload `"ab"`: the cursor gets an insertion
and the selection is replaced, in one batch. -/
theorem insert_command_spec_witness :
    insertHandler "ab" none =
      InsertResult.noEditor "Open a text editor to insert the command." ∧
    selsOK ("hello".data.length) 0 [⟨1, 1⟩, ⟨2, 4⟩] = true ∧
    insertHandler "ab" (some ⟨"hello".data, [⟨1, 1⟩, ⟨2, 4⟩]⟩) =
      InsertResult.edited
        (specInsertAll "ab".data "hello".data 0 [⟨1, 1⟩, ⟨2, 4⟩]) ∧
    insertHandler "ab" (some ⟨"hello".data, [⟨1, 1⟩, ⟨2, 4⟩]⟩) =
      InsertResult.edited "habeabo".data :=
  ⟨(insert_command_spec "ab").1, by decide,
    (insert_command_spec "ab").2 ⟨"hello".data, [⟨1, 1⟩, ⟨2, 4⟩]⟩ (by decide),
    by decide⟩

end CommandDictionary
